import Mathlib

/-!
# Groupify — verification of the parsing and settlement core

Shallow embedding of the Groupify repository (receipt parsing and bill
splitting) and proofs about the claims of its specification.

Modelling conventions:
* Monetary values are rationals (`ℚ`).  `bill_splitter.py` computes with
  Python `Decimal` (exact decimal arithmetic with explicit quantization),
  which embeds exactly into `ℚ`; the float variants only ever hold prices
  with two decimal places in the claims considered here.
* A Python `dict` is an insertion-ordered association list
  (`List (String × ℚ)`): `dictSet` updates in place or appends, matching
  CPython's dict semantics.
* `Decimal.quantize(Decimal("0.01"), rounding=ROUND_HALF_UP)` is
  `quantize2`: round to a multiple of 1/100, ties away from zero.
* Python exceptions (`ZeroDivisionError` from `Decimal` division) are
  modelled with `Except String`; the total functions used by the other
  theorems agree with the `Except` versions whenever no exception occurs.
-/

namespace Groupify

/-- A single receipt item (data_models.py `ReceiptItem`).  `id` is an opaque
identity token (the Python code uses a uuid/counter; only distinctness
matters), `quantity` a non-negative integer, prices are rationals. -/
structure ReceiptItem where
  id : Nat
  name : String
  quantity : Nat := 1
  unit_price : ℚ := 0
  price : ℚ := 0
  assigned_to : List String := []
deriving Repr, DecidableEq

/-- A whole receipt (data_models.py `Receipt`). -/
structure Receipt where
  items : List ReceiptItem := []
  total : ℚ := 0
  original_total : ℚ := 0
  tip_amount : ℚ := 0
  currency : String := "BGN"
deriving Repr, DecidableEq

/-- A settlement (data_models.py `Settlement`). -/
structure Settlement where
  from_person : String
  to_person : String
  amount : ℚ
  currency : String := "BGN"
deriving Repr, DecidableEq

/-- `SETTLEMENT_EPSILON`.  Modelled from the spec: the constant is imported
from `constants.py`, which in the packaged sources does not define it; the
spec fixes epsilon at 0.01 (config.py also defaults it to Decimal "0.01"). -/
def SETTLEMENT_EPSILON : ℚ := 1 / 100

/-- `Decimal.quantize(DECIMAL_QUANTIZE, rounding=ROUND_HALF_UP)`: round to
two decimal places, ties away from zero.  `DECIMAL_QUANTIZE` is modelled
from the spec (§3: balances rounded to 2 decimal places round-half-up);
the packaged `constants.py` does not define it. -/
def quantize2 (q : ℚ) : ℚ :=
  if q < 0 then -((⌊(-q) * 100 + 1 / 2⌋ : ℤ) / 100) else ((⌊q * 100 + 1 / 2⌋ : ℤ) / 100)

/-! ## Python dict as an insertion-ordered association list -/

/-- `d[k] = v` on a Python dict: update the first (only) binding of `k`,
or append a new binding at the end. -/
def dictSet : List (String × ℚ) → String → ℚ → List (String × ℚ)
  | [], k, v => [(k, v)]
  | (k', v') :: rest, k, v =>
    if k' = k then (k', v) :: rest else (k', v') :: dictSet rest k v

/-- `k in d` on a Python dict. -/
def dictMem (m : List (String × ℚ)) (k : String) : Bool :=
  m.any (fun e => e.1 = k)

/-- `d[k]` with default (every lookup in the embedded code is at a key that
is present, so the default is never observable). -/
def dictGetD (m : List (String × ℚ)) (k : String) (v₀ : ℚ) : ℚ :=
  match m.find? (fun e => e.1 = k) with
  | some e => e.2
  | none => v₀

/-- Sum of the values of a dict (`sum(d.values())`). -/
def sumVals (m : List (String × ℚ)) : ℚ :=
  (m.map Prod.snd).sum

/-! ## BillSplitter.calculate_balances (bill_splitter.py, lines 27–50)

```python
for person in self.people:
    self.balances[person] = Decimal("0.00")
for item in self.receipt.items:
    if item.assigned_to:
        share_per_person = Decimal(str(item.price)) / Decimal(len(item.assigned_to))
        for person in item.assigned_to:
            if person in self.balances:
                self.balances[person] += share_per_person
if self.receipt.tip_amount > 0:
    tip_per_person = Decimal(str(self.receipt.tip_amount)) / Decimal(len(self.people))
    for person in self.people:
        self.balances[person] += tip_per_person
for person in self.people:
    self.balances[person] = self.balances[person].quantize(DECIMAL_QUANTIZE, ROUND_HALF_UP)
```
The tip division is by `len(people)`; with an empty people list Python
raises `DivisionByZero`.  `calculate_balancesE` models that; the total
function `calculate_balances` below is the same computation with ℚ's
total division and agrees with it whenever `people ≠ []` or no tip. -/

/-- One item's contribution to the balances dict. -/
def addItemShares (m : List (String × ℚ)) (it : ReceiptItem) : List (String × ℚ) :=
  if it.assigned_to ≠ [] then
    it.assigned_to.foldl
      (fun m' p =>
        if dictMem m' p then dictSet m' p (dictGetD m' p 0 + it.price / (it.assigned_to.length : ℚ))
        else m')
      m
  else m

/-- `BillSplitter.calculate_balances` (total model). -/
def calculate_balances (receipt : Receipt) (people : List String) : List (String × ℚ) :=
  let b0 := people.foldl (fun m p => dictSet m p 0) []
  let b1 := receipt.items.foldl addItemShares b0
  let b2 :=
    if receipt.tip_amount > 0 then
      people.foldl (fun m p => dictSet m p (dictGetD m p 0 + receipt.tip_amount / (people.length : ℚ))) b1
    else b1
  people.foldl (fun m p => dictSet m p (quantize2 (dictGetD m p 0))) b2

/-- `BillSplitter.calculate_balances` with the Decimal division-by-zero
behavior made explicit: the tip distribution divides by `len(people)` and
raises when `people` is empty. -/
def calculate_balancesE (receipt : Receipt) (people : List String) :
    Except String (List (String × ℚ)) :=
  let b0 := people.foldl (fun m p => dictSet m p 0) []
  let b1 := receipt.items.foldl addItemShares b0
  if receipt.tip_amount > 0 then
    if people.length = 0 then .error "DivisionByZero"
    else .ok (people.foldl
      (fun m p => dictSet m p (quantize2 (dictGetD m p 0)))
      (people.foldl
        (fun m p => dictSet m p (dictGetD m p 0 + receipt.tip_amount / (people.length : ℚ))) b1))
  else .ok (people.foldl (fun m p => dictSet m p (quantize2 (dictGetD m p 0))) b1)

/-! ## BillSplitter.optimize_settlements (bill_splitter.py, lines 52–96)

```python
equal_share = Decimal(str(self.receipt.total)) / Decimal(len(self.people))
creditors, debtors = [], []
for person in self.people:
    difference = self.balances[person] - equal_share
    if difference > SETTLEMENT_EPSILON:
        creditors.append({'name': person, 'amount': difference})
    elif difference < -SETTLEMENT_EPSILON:
        debtors.append({'name': person, 'amount': -difference})
creditors.sort(key=lambda x: x['amount'], reverse=True)
debtors.sort(key=lambda x: x['amount'], reverse=True)
settlements, i, j = [], 0, 0
while i < len(creditors) and j < len(debtors):
    amount = min(creditors[i]['amount'], debtors[j]['amount'])
    if amount > SETTLEMENT_EPSILON:
        settlements.append(Settlement(debtors[j]['name'], creditors[i]['name'],
                                      float(amount.quantize(...)), self.receipt.currency))
    creditors[i]['amount'] -= amount
    debtors[j]['amount'] -= amount
    if creditors[i]['amount'] < SETTLEMENT_EPSILON: i += 1
    if debtors[j]['amount'] < SETTLEMENT_EPSILON: j += 1
```
-/

/-- Stable insertion into a descending list: an element is placed before
the first strictly smaller entry, after any equal ones inserted later. -/
def insertDesc (x : String × ℚ) : List (String × ℚ) → List (String × ℚ)
  | [] => [x]
  | y :: ys => if x.2 ≥ y.2 then x :: y :: ys else y :: insertDesc x ys

/-- `list.sort(key=amount, reverse=True)`: stable descending sort by
amount (Python's Timsort with `reverse=True` keeps ties in list order). -/
def sortDesc : List (String × ℚ) → List (String × ℚ)
  | [] => []
  | x :: xs => insertDesc x (sortDesc xs)

/-- The creditor list built by the `for person in self.people` loop:
people whose balance exceeds the equal share by more than epsilon,
in people-list order, paired with the surplus. -/
def creditorsOf (balances : List (String × ℚ)) (share : ℚ) (people : List String) :
    List (String × ℚ) :=
  people.filterMap (fun p =>
    let d := dictGetD balances p 0 - share
    if d > SETTLEMENT_EPSILON then some (p, d) else none)

/-- The debtor list: people whose balance falls short of the equal share
by more than epsilon, paired with the (positive) deficit. -/
def debtorsOf (balances : List (String × ℚ)) (share : ℚ) (people : List String) :
    List (String × ℚ) :=
  people.filterMap (fun p =>
    let d := dictGetD balances p 0 - share
    if d < -SETTLEMENT_EPSILON then some (p, -d) else none)

/-- The creditor/debtor pairing loop of `optimize_settlements`, with a
structural fuel parameter (one unit per iteration; every iteration
retires at least one party, so `|creditors| + |debtors|` units suffice —
see `settleLoop`).  The two index pointers of the Python loop become list
heads; a head is dropped exactly when its remaining amount falls below
epsilon.  The fourth branch (neither remainder below epsilon) is
unreachable because the transferred amount is the minimum of the two
remainders, so one of them becomes 0. -/
def settleLoopAux (currency : String) : Nat → List (String × ℚ) → List (String × ℚ) → List Settlement
  | _, [], _ => []
  | _, _ :: _, [] => []
  | 0, _ :: _, _ :: _ => []
  | fuel + 1, (cn, ca) :: cs, (dn, da) :: ds =>
    let emitted : List Settlement :=
      if min ca da > SETTLEMENT_EPSILON then
        [{ from_person := dn, to_person := cn, amount := quantize2 (min ca da),
           currency := currency }]
      else []
    if h1 : ca - min ca da < SETTLEMENT_EPSILON then
      if da - min ca da < SETTLEMENT_EPSILON then emitted ++ settleLoopAux currency fuel cs ds
      else emitted ++ settleLoopAux currency fuel cs ((dn, da - min ca da) :: ds)
    else
      if h2 : da - min ca da < SETTLEMENT_EPSILON then
        emitted ++ settleLoopAux currency fuel ((cn, ca - min ca da) :: cs) ds
      else
        False.elim (by
          rcases le_total ca da with hm | hm
          · exact h1 (by rw [min_eq_left hm]; simp [SETTLEMENT_EPSILON])
          · exact h2 (by rw [min_eq_right hm]; simp [SETTLEMENT_EPSILON]))

/-- The `while i < len(creditors) and j < len(debtors)` loop. -/
def settleLoop (currency : String) (creditors debtors : List (String × ℚ)) : List Settlement :=
  settleLoopAux currency (creditors.length + debtors.length) creditors debtors

/-- `BillSplitter.optimize_settlements` (total model; the equal-share
division is by `len(people)`, see `optimize_settlementsE` for the
exception behavior when `people` is empty). -/
def optimize_settlements (receipt : Receipt) (people : List String)
    (balances0 : List (String × ℚ)) : List Settlement :=
  let balances := if balances0 = [] then calculate_balances receipt people else balances0
  let share := receipt.total / (people.length : ℚ)
  settleLoop receipt.currency
    (sortDesc (creditorsOf balances share people))
    (sortDesc (debtorsOf balances share people))

/-- `BillSplitter.optimize_settlements` with Decimal's `DivisionByZero`
made explicit: both the tip distribution (inside the balance
recomputation) and the equal-share computation divide by `len(people)`. -/
def optimize_settlementsE (receipt : Receipt) (people : List String)
    (balances0 : List (String × ℚ)) : Except String (List Settlement) :=
  match (if balances0 = [] then calculate_balancesE receipt people else .ok balances0) with
  | .error e => .error e
  | .ok balances =>
    if people.length = 0 then .error "DivisionByZero"
    else
      let share := receipt.total / (people.length : ℚ)
      .ok (settleLoop receipt.currency
        (sortDesc (creditorsOf balances share people))
        (sortDesc (debtorsOf balances share people)))

/-! ## The basic_split.py variant (lines 194–253)

`basic_split.BillSplitter.optimize_settlements` begins with
`if not self.people: return []`, computes float balances with no tip and
no quantization, and emits `round(amount, 2)` (Python banker's rounding). -/

/-- A settlement dict of basic_split.py (`{'from','to','amount'}`). -/
structure BasicSettlement where
  from_person : String
  to_person : String
  amount : ℚ
deriving Repr, DecidableEq

/-- Python's `round(x, 2)`: nearest multiple of 1/100, ties to even
(modelled on exact rationals). -/
def roundHalfEven2 (q : ℚ) : ℚ :=
  let x := q * 100
  if x - ⌊x⌋ < 1 / 2 then (⌊x⌋ : ℤ) / 100
  else if x - ⌊x⌋ > 1 / 2 then ((⌊x⌋ + 1 : ℤ) : ℚ) / 100
  else if Even ⌊x⌋ then (⌊x⌋ : ℤ) / 100 else ((⌊x⌋ + 1 : ℤ) : ℚ) / 100

/-- `basic_split.BillSplitter.calculate_balances`: zero-initialised over
people, item shares added under the same membership guard, no tip and no
rounding. -/
def basic_calculate_balances (items : List ReceiptItem) (people : List String) :
    List (String × ℚ) :=
  items.foldl addItemShares (people.foldl (fun m p => dictSet m p 0) [])

/-- The pairing loop of basic_split.py (same structure as `settleLoop`,
with `round(amount, 2)` and threshold 0.01), fuelled like `settleLoopAux`. -/
def basicSettleLoopAux : Nat → List (String × ℚ) → List (String × ℚ) → List BasicSettlement
  | _, [], _ => []
  | _, _ :: _, [] => []
  | 0, _ :: _, _ :: _ => []
  | fuel + 1, (cn, ca) :: cs, (dn, da) :: ds =>
    let emitted : List BasicSettlement :=
      if min ca da > (1 : ℚ) / 100 then
        [{ from_person := dn, to_person := cn, amount := roundHalfEven2 (min ca da) }]
      else []
    if h1 : ca - min ca da < (1 : ℚ) / 100 then
      if da - min ca da < (1 : ℚ) / 100 then emitted ++ basicSettleLoopAux fuel cs ds
      else emitted ++ basicSettleLoopAux fuel cs ((dn, da - min ca da) :: ds)
    else
      if h2 : da - min ca da < (1 : ℚ) / 100 then
        emitted ++ basicSettleLoopAux fuel ((cn, ca - min ca da) :: cs) ds
      else
        False.elim (by
          rcases le_total ca da with hm | hm
          · exact h1 (by rw [min_eq_left hm]; norm_num)
          · exact h2 (by rw [min_eq_right hm]; norm_num))

/-- The settlement loop of basic_split.py. -/
def basicSettleLoop (creditors debtors : List (String × ℚ)) : List BasicSettlement :=
  basicSettleLoopAux (creditors.length + debtors.length) creditors debtors

/-- `basic_split.BillSplitter.optimize_settlements`.  The guard
`if not self.people: return []` makes the empty-people case total.
(The people list is duplicate-free per spec §6; with duplicates the
Python `amounts` dict would deduplicate, which `filterMap` does not.) -/
def basic_optimize_settlements (items : List ReceiptItem) (people : List String)
    (total : ℚ) : List BasicSettlement :=
  if people = [] then []
  else
    let balances := basic_calculate_balances items people
    let share := total / (people.length : ℚ)
    basicSettleLoop
      (sortDesc (creditorsOf balances share people))
      (sortDesc (debtorsOf balances share people))

/-! ## Derived quantities used in the claim statements -/

/-- `sum(item.price for assigned items)`: total price of the items with a
non-empty `assigned_to`. -/
def assignedTotal (items : List ReceiptItem) : ℚ :=
  ((items.filter (fun it => !it.assigned_to.isEmpty)).map ReceiptItem.price).sum

/-- Total amount a person pays across a settlement list. -/
def paidBy (s : List Settlement) (p : String) : ℚ :=
  ((s.filter (fun t => t.from_person = p)).map Settlement.amount).sum

/-- Total amount a person receives across a settlement list. -/
def recvBy (s : List Settlement) (p : String) : ℚ :=
  ((s.filter (fun t => t.to_person = p)).map Settlement.amount).sum

/-- Sum of a per-person quantity over a people list. -/
def sumOver (P : List String) (f : String → ℚ) : ℚ :=
  (P.map f).sum

/-- Concrete receipt for the C1 counterexample: five one-person items whose
prices sum to the detected total of 50.00. -/
def c1Receipt : Receipt :=
  { items := [
      { id := 1, name := "a", price := 1002 / 100, assigned_to := ["A"] },
      { id := 2, name := "b", price := 1002 / 100, assigned_to := ["B"] },
      { id := 3, name := "c", price := 1002 / 100, assigned_to := ["C"] },
      { id := 4, name := "d", price := 997 / 100, assigned_to := ["D"] },
      { id := 5, name := "e", price := 997 / 100, assigned_to := ["E"] }],
    total := 50 }

/-- People list for the C1 counterexample. -/
def c1People : List String := ["A", "B", "C", "D", "E"]

/-- Two-person receipt used as witness for the amended C1 claim
(balances 30 and 10 against a total of 40). -/
def c1wReceipt : Receipt :=
  { items := [
      { id := 1, name := "a", price := 30, assigned_to := ["A"] },
      { id := 2, name := "b", price := 10, assigned_to := ["B"] }],
    total := 40 }

/-! ## ReceiptParser (receipt_parser.py)

The parser works on Python strings; we embed the relevant string
operations over `List Char`.  Python's `re` patterns are hand-compiled
into backtracking combinators with Python's matching order (greedy
quantifiers try the longest match first, lazy ones the shortest;
alternatives are tried left to right), and `re.IGNORECASE` is Unicode
case folding over the Latin and Cyrillic letters that occur in the
patterns. -/

/-- Python `str.lower` restricted to the alphabets in play (ASCII and the
basic Cyrillic block). -/
def pyToLower (c : Char) : Char :=
  if 'A' ≤ c ∧ c ≤ 'Z' then Char.ofNat (c.toNat + 32)
  else if 'А' ≤ c ∧ c ≤ 'Я' then Char.ofNat (c.toNat + 32)
  else if c = 'Ё' then 'ё'
  else c

/-- Python `str.upper` restricted to the same alphabets. -/
def pyToUpper (c : Char) : Char :=
  if 'a' ≤ c ∧ c ≤ 'z' then Char.ofNat (c.toNat - 32)
  else if 'а' ≤ c ∧ c ≤ 'я' then Char.ofNat (c.toNat - 32)
  else if c = 'ё' then 'Ё'
  else c

/-- Case-insensitive character comparison (`re.IGNORECASE`). -/
def ciEq (a b : Char) : Bool :=
  pyToLower a = pyToLower b

/-- Python `\s` (the whitespace that occurs in receipt text). -/
def isSpaceCh (c : Char) : Bool :=
  c = ' ' ∨ c = '\t' ∨ c = '\n' ∨ c = '\r' ∨ c = '\x0b' ∨ c = '\x0c'

def isDigitCh (c : Char) : Bool :=
  '0' ≤ c ∧ c ≤ '9'

/-- The class `[\d,\.]` used for price captures. -/
def isNumCh (c : Char) : Bool :=
  isDigitCh c ∨ c = ',' ∨ c = '.'

/-- `.` in a pattern (anything but a newline). -/
def isDotCh (c : Char) : Bool :=
  c ≠ '\n'

/-- The quantity marker class `[xх×]` under IGNORECASE. -/
def isXCh (c : Char) : Bool :=
  c = 'x' ∨ c = 'X' ∨ c = 'х' ∨ c = 'Х' ∨ c = '×'

/-- `[-–]`. -/
def isDashCh (c : Char) : Bool :=
  c = '-' ∨ c = '–'

/-- `[-\s]`. -/
def isDashSpaceCh (c : Char) : Bool :=
  c = '-' ∨ isSpaceCh c

def isLatinCh (c : Char) : Bool :=
  ('a' ≤ c ∧ c ≤ 'z') ∨ ('A' ≤ c ∧ c ≤ 'Z')

/-- `[а-яА-Я]` (plus ё/Ё, which Python's ranges exclude but which never
occurs in the claims' inputs). -/
def isCyrCh (c : Char) : Bool :=
  ('а' ≤ c ∧ c ≤ 'я') ∨ ('А' ≤ c ∧ c ≤ 'Я')

/-- Python `\w` restricted to the alphabets in play. -/
def isWordCh (c : Char) : Bool :=
  isLatinCh c ∨ isDigitCh c ∨ c = '_' ∨ isCyrCh c ∨ c = 'ё' ∨ c = 'Ё'

/-- Python `str.strip`. -/
def stripChars (cs : List Char) : List Char :=
  ((cs.dropWhile isSpaceCh).reverse.dropWhile isSpaceCh).reverse

def strip (s : String) : String :=
  String.mk (stripChars s.toList)

/-- `needle in haystack` on strings (substring test). -/
def startsWithChars : List Char → List Char → Bool
  | [], _ => true
  | _ :: _, [] => false
  | a :: as, b :: bs => a = b && startsWithChars as bs

def subIn (needle : List Char) : List Char → Bool
  | [] => needle.isEmpty
  | c :: rest => startsWithChars needle (c :: rest) || subIn needle rest

/-! ### Backtracking pattern combinators (Python `re` matching order) -/

/-- Greedy `cls*`: consume as much as possible, backtracking. -/
def manyG (p : Char → Bool) : List Char → (List Char → Option α) → Option α
  | [], k => k []
  | c :: rest, k =>
    if p c then (manyG p rest k).orElse (fun _ => k (c :: rest)) else k (c :: rest)

/-- Lazy `cls*?`: consume as little as possible, extending on failure. -/
def manyL (p : Char → Bool) : List Char → (List Char → Option α) → Option α
  | [], k => k []
  | c :: rest, k =>
    (k (c :: rest)).orElse (fun _ => if p c then manyL p rest k else none)

/-- Greedy `cls+`. -/
def plusG (p : Char → Bool) (cs : List Char) (k : List Char → Option α) : Option α :=
  match cs with
  | [] => none
  | c :: rest => if p c then manyG p rest k else none

/-- Lazy `cls+?` (used for `(.+?)`). -/
def plusL (p : Char → Bool) (cs : List Char) (k : List Char → Option α) : Option α :=
  match cs with
  | [] => none
  | c :: rest => if p c then manyL p rest k else none

/-- Case-insensitive literal. -/
def litCI : List Char → List Char → Option (List Char)
  | [], cs => some cs
  | _ :: _, [] => none
  | a :: as, c :: cs => if ciEq a c then litCI as cs else none

/-- First alternative (in order) that matches a prefix. -/
def tryAlts (alts : List (List Char)) (cs : List Char) : Option (List Char) :=
  match alts with
  | [] => none
  | a :: rest =>
    match litCI a cs with
    | some r => some r
    | none => tryAlts rest cs

/-- Optional alternation `(?:a|b|…)?`: each alternative is tried in order
(continuing with the rest of the pattern), then the empty match. -/
def optAlts (alts : List (List Char)) (cs : List Char) (k : List Char → Option α) : Option α :=
  (match alts with
   | [] => none
   | _ =>
     (alts.foldr (fun lit acc =>
       (match litCI lit cs with
        | some rest => k rest
        | none => none).orElse (fun _ => acc)) none)).orElse (fun _ => k cs)

/-- The consumed prefix between two suffix positions of the same string. -/
def taken (cs rest : List Char) : List Char :=
  cs.take (cs.length - rest.length)

/-- `re.search`: try an anchored match at every position, leftmost first. -/
def searchR (f : List Char → Option α) : List Char → Option α
  | [] => f []
  | c :: rest => (f (c :: rest)).orElse (fun _ => searchR f rest)

/-- `re.search` also reporting the match's start index (for
`match.start()` in the fallback pass). -/
def searchPos (f : List Char → Option α) : List Char → Nat → Option (Nat × α)
  | [], i => (f []).map (fun a => (i, a))
  | c :: rest, i =>
    match f (c :: rest) with
    | some a => some (i, a)
    | none => searchPos f rest (i + 1)

/-- The trailing currency tokens `(?:лв|Г|Б|BGN|\$|USD|€|EUR)`. -/
def curAlts : List (List Char) :=
  [['л', 'в'], ['Г'], ['Б'], ['B', 'G', 'N'], ['$'], ['U', 'S', 'D'], ['€'],
   ['E', 'U', 'R']]

/-- Digits of a capture as a number (`int(...)` on a `\d+` group). -/
def natOfDigits (cs : List Char) : Nat :=
  cs.foldl (fun n c => n * 10 + (c.toNat - '0'.toNat)) 0

/-! ### ReceiptParser._clean_price (receipt_parser.py, lines 28–51) -/

/-- Python `float()` on a string of digits, commas and dots: digits with at
most one dot and no commas (at least one digit). -/
def parseDecimal (cs : List Char) : Option ℚ :=
  if cs.contains ',' then none
  else
    let intPart := cs.takeWhile (fun c => c ≠ '.')
    match cs.dropWhile (fun c => c ≠ '.') with
    | [] => if intPart.isEmpty then none else some (natOfDigits intPart : ℚ)
    | _ :: frac =>
      if frac.contains '.' then none
      else if intPart.isEmpty ∧ frac.isEmpty then none
      else some ((natOfDigits intPart : ℚ) + (natOfDigits frac : ℚ) / (10 ^ frac.length))

/-- The characters after the single comma (`cleaned.split(',')[1]`). -/
def afterComma (cs : List Char) : List Char :=
  (cs.dropWhile (fun c => c ≠ ',')).drop 1

/-- `ReceiptParser._clean_price`: strip non-numeric characters, resolve the
comma/dot convention, parse, and keep the result only in the plausible
range [0.01, 10000]; 0.0 is the "no value" sentinel. -/
def cleanPrice (price_str : String) : ℚ :=
  if price_str = "" then 0
  else
    let cleaned := price_str.toList.filter (fun c => isDigitCh c ∨ c = ',' ∨ c = '.')
    let resolved :=
      if cleaned.contains ',' ∧ cleaned.contains '.' then
        (cleaned.filter (fun c => c ≠ '.')).map (fun c => if c = ',' then '.' else c)
      else if cleaned.contains ',' ∧ cleaned.count ',' = 1 then
        if (afterComma cleaned).length ≤ 2 then
          cleaned.map (fun c => if c = ',' then '.' else c)
        else cleaned
      else cleaned
    match parseDecimal resolved with
    | some price => if 1 / 100 ≤ price ∧ price ≤ 10000 then price else 0
    | none => 0

/-! ### ReceiptParser._normalize_text and _is_valid_item_name -/

/-- Python `str.split()` (whitespace runs, empties dropped). -/
def splitWs (cs : List Char) : List (List Char) :=
  let step := cs.foldr
    (fun c (acc : List Char × List (List Char)) =>
      if isSpaceCh c then
        match acc.1 with
        | [] => ([], acc.2)
        | w => ([], w :: acc.2)
      else (c :: acc.1, acc.2))
    ([], [])
  match step.1 with
  | [] => step.2
  | w => w :: step.2

/-- `' '.join(words)`. -/
def joinSpace (ws : List (List Char)) : List Char :=
  match ws with
  | [] => []
  | w :: rest => rest.foldl (fun acc w' => acc ++ [' '] ++ w') w

/-- `ReceiptParser._normalize_text`: lowercase, collapse whitespace, then
replace every character outside `\w`, `\s` and `а-я` by a space, and
strip. -/
def normalizeText (cs : List Char) : List Char :=
  let lowered := cs.map pyToLower
  let collapsed := joinSpace (splitWs lowered)
  let replaced := collapsed.map (fun c =>
    if isWordCh c ∨ isSpaceCh c ∨ ('а' ≤ c ∧ c ≤ 'я') then c else ' ')
  stripChars replaced

/-- `SKIP_WORDS` (constants.py): the lowercase, uppercase and capitalised
variants listed there. -/
def SKIP_WORDS : List String :=
  ["СУМА", "TOTAL", "БОН", "ДДС", "УНП", "ЕИК", "КАРТА", "СМЕТКА",
   "БЛАГОДАРИМ", "TAX", "SUBTOTAL", "CASH", "CHANGE", "CARD",
   "RECEIPT", "INVOICE", "DATE", "TIME", "CASHIER", "THANK",
   "ЧЕК", "КАСА", "РЕСТОРАНТ", "КАФЕ",
   "сума", "total", "бон", "ддс", "унп", "еик", "карта", "сметка",
   "благодарим", "tax", "subtotal", "cash", "change", "card",
   "receipt", "invoice", "date", "time", "cashier", "thank",
   "чек", "каса", "ресторант",
   "Сума", "Total", "Бон", "Ддс", "Унп", "Еик", "Карта", "Сметка",
   "Благодарим", "Tax", "Subtotal", "Cash", "Change", "Card",
   "Receipt", "Invoice", "Date", "Time", "Cashier", "Thank",
   "Чек", "Каса", "Ресторант", "Общо", "ОБЩО"]

/-- `ReceiptParser._is_valid_item_name` (receipt_parser.py, lines 59–76). -/
def isValidItemName (name : String) : Bool :=
  let cs := name.toList
  if name = "" ∨ (stripChars cs).length < 2 then false
  else
    let normalized := normalizeText cs
    if SKIP_WORDS.any (fun w => subIn w.toList normalized) then false
    else if ¬ cs.any (fun c => isLatinCh c ∨ isCyrCh c) then false
    else if (cs.filter (fun c =>
        ¬ (isDigitCh c ∨ isSpaceCh c ∨ c = '.' ∨ c = ',' ∨ c = '-'))).length < 2 then
      false
    else true

/-! ### difflib.SequenceMatcher ratio (used by _similarity_score)

`SequenceMatcher(None, a, b).ratio()` is `2*M/(len(a)+len(b))` where `M`
is the total size of the matching blocks: recursively, the longest common
substring (ties broken towards the smallest position in `a`, then in `b`)
plus the matching blocks to its left and to its right.  (The autojunk
heuristic only kicks in for strings of 200+ characters and never triggers
on the evaluated inputs.) -/

/-- Length of the common prefix. -/
def commonRun : List Char → List Char → Nat
  | a :: as, b :: bs => if a = b then commonRun as bs + 1 else 0
  | _, _ => 0

/-- Longest common substring as (start in a, start in b, length); scanning
positions in ascending order with strict improvement reproduces difflib's
tie-breaking. -/
def flm (a b : List Char) : Nat × Nat × Nat :=
  (List.range a.length).foldl
    (fun best i =>
      (List.range b.length).foldl
        (fun best j =>
          let k := commonRun (a.drop i) (b.drop j)
          if k > best.2.2 then (i, j, k) else best)
        best)
    (0, 0, 0)

/-- Total size of the matching blocks (fuelled recursion on the segment
splits; `length + 1` units always suffice). -/
def matchTotalAux : Nat → List Char → List Char → Nat
  | 0, _, _ => 0
  | fuel + 1, a, b =>
    let r := flm a b
    if r.2.2 = 0 then 0
    else
      matchTotalAux fuel (a.take r.1) (b.take r.2.1) + r.2.2 +
        matchTotalAux fuel (a.drop (r.1 + r.2.2)) (b.drop (r.2.1 + r.2.2))

def matchTotal (a b : List Char) : Nat :=
  matchTotalAux (a.length + 1) a b

/-- `SequenceMatcher.ratio()` (1.0 for two empty strings, as in difflib). -/
def smRatio (a b : List Char) : ℚ :=
  if a.length + b.length = 0 then 1
  else 2 * (matchTotal a b : ℚ) / ((a.length : ℚ) + (b.length : ℚ))

/-- `_similarity_score`: ratio of the lowercased strings. -/
def similarityScore (s1 s2 : String) : ℚ :=
  smRatio (s1.toList.map pyToLower) (s2.toList.map pyToLower)

/-! ### ReceiptParser._deduplicate_by_line_similarity (lines 82–113) -/

/-- Python `text.split('\n')` (keeps empty pieces). -/
def splitOnNl (cs : List Char) : List (List Char) :=
  cs.foldr
    (fun c acc =>
      if c = '\n' then [] :: acc
      else
        match acc with
        | [] => [[c]]
        | w :: ws => (c :: w) :: ws)
    [[]]

/-- `'\n'.join(lines)`. -/
def joinNl (ws : List (List Char)) : List Char :=
  match ws with
  | [] => []
  | w :: rest => rest.foldl (fun acc w' => acc ++ '\n' :: w') w

/-- The line-deduplication loop: skip empty lines, exact repeats, and lines
more than 0.95-similar to one of the last 10 kept lines. -/
def dedupLoop : List String → List String → List String → List String → List String
  | [], uniq, _, _ => uniq
  | l :: rest, uniq, seenExact, seenSim =>
    let line := strip l
    if line = "" then dedupLoop rest uniq seenExact seenSim
    else if seenExact.contains line then dedupLoop rest uniq seenExact seenSim
    else if (seenSim.drop (seenSim.length - 10)).any
        (fun s => similarityScore line s > 95 / 100) then
      dedupLoop rest uniq seenExact seenSim
    else
      dedupLoop rest (uniq ++ [line]) (seenExact ++ [line]) (seenSim ++ [line])

def dedupLines (text : String) : String :=
  String.mk (joinNl
    ((dedupLoop ((splitOnNl text.toList).map String.mk) [] [] []).map String.toList))

/-! ### ReceiptParser._detect_currency (lines 246–259) -/

/-- Number of non-overlapping `re.findall` matches of an alternation of
literals (case-insensitive), scanning left to right. -/
def countAltsAux (alts : List (List Char)) : Nat → List Char → Nat
  | 0, _ => 0
  | _ + 1, [] => 0
  | fuel + 1, c :: rest =>
    match tryAlts alts (c :: rest) with
    | some after => 1 + countAltsAux alts fuel after
    | none => countAltsAux alts fuel rest

def countAlts (alts : List (List Char)) (cs : List Char) : Nat :=
  countAltsAux alts cs.length cs

/-- `len(re.findall(r'лв|Г|Б|BGN', text, re.IGNORECASE))`. -/
def bgCount (text : String) : Nat :=
  countAlts [['л', 'в'], ['Г'], ['Б'], ['B', 'G', 'N']] text.toList

/-- `len(re.findall(r'\$|USD', text, re.IGNORECASE))`. -/
def usdCount (text : String) : Nat :=
  countAlts [['$'], ['U', 'S', 'D']] text.toList

/-- `len(re.findall(r'€|EUR', text, re.IGNORECASE))`. -/
def eurCount (text : String) : Nat :=
  countAlts [['€'], ['E', 'U', 'R']] text.toList

/-- `ReceiptParser._detect_currency`. -/
def detectCurrency (text : String) : String :=
  let bg := bgCount text
  let usd := usdCount text
  let eur := eurCount text
  if bg > max usd eur then "BGN"
  else if usd > eur then "USD"
  else if eur > 0 then "EUR"
  else "BGN"

/-! ### ReceiptParser._extract_items_from_line (receipt_parser.py, lines 115–232)

The five regex patterns of the cascade, hand-compiled to the backtracking
combinators above (group captures are returned as `taken`-slices).  A match
whose name or price fails validation falls through to the next pattern, as
in the code (the `return items` sits inside the validity test). -/

/-- Pattern 1: `(.+?)\s*[xх×](\d+)\s*[-\s]*([\d,\.]+)\s*(?:лв|Г|Б|BGN|\$|USD|€|EUR)?`
anchored at one position; captures (name, qty digits, price). -/
def p1At (cs : List Char) : Option (List Char × List Char × List Char) :=
  plusL isDotCh cs (fun r1 =>
    manyG isSpaceCh r1 (fun r2 =>
      match r2 with
      | c :: r3 =>
        if isXCh c then
          plusG isDigitCh r3 (fun r4 =>
            manyG isSpaceCh r4 (fun r5 =>
              manyG isDashSpaceCh r5 (fun r6 =>
                plusG isNumCh r6 (fun r7 =>
                  manyG isSpaceCh r7 (fun r8 =>
                    optAlts curAlts r8 (fun _ =>
                      some (taken cs r1, taken r3 r4, taken r6 r7)))))))
        else none
      | [] => none))

/-- Pattern 2: `^(\d+)\s+(.+?)\s*[-–]\s*([\d,\.]+)\s*(?:…)?` (anchored at the
start by `^`); captures (qty digits, name, price). -/
def p2At (cs : List Char) : Option (List Char × List Char × List Char) :=
  plusG isDigitCh cs (fun r1 =>
    plusG isSpaceCh r1 (fun r2 =>
      plusL isDotCh r2 (fun r3 =>
        manyG isSpaceCh r3 (fun r4 =>
          match r4 with
          | c :: r5 =>
            if isDashCh c then
              manyG isSpaceCh r5 (fun r6 =>
                plusG isNumCh r6 (fun r7 =>
                  manyG isSpaceCh r7 (fun r8 =>
                    optAlts curAlts r8 (fun _ =>
                      some (taken cs r1, taken r2 r3, taken r6 r7)))))
            else none
          | [] => none))))

/-- Pattern 3: `(.+?)\s+(\d+)\s*[xх×]\s*([\d,\.]+)\s+([\d,\.]+)`; captures
(name, qty digits, unit price, total price). -/
def p3At (cs : List Char) : Option (List Char × List Char × List Char × List Char) :=
  plusL isDotCh cs (fun r1 =>
    plusG isSpaceCh r1 (fun r2 =>
      plusG isDigitCh r2 (fun r3 =>
        manyG isSpaceCh r3 (fun r4 =>
          match r4 with
          | c :: r5 =>
            if isXCh c then
              manyG isSpaceCh r5 (fun r6 =>
                plusG isNumCh r6 (fun r7 =>
                  plusG isSpaceCh r7 (fun r8 =>
                    plusG isNumCh r8 (fun r9 =>
                      some (taken cs r1, taken r2 r3, taken r6 r7, taken r8 r9)))))
            else none
          | [] => none))))

/-- Pattern 4: `^(.+?)\s*[-–]\s*([\d,\.]+)\s*(?:…)?` (anchored); captures
(name, price). -/
def p4At (cs : List Char) : Option (List Char × List Char) :=
  plusL isDotCh cs (fun r1 =>
    manyG isSpaceCh r1 (fun r2 =>
      match r2 with
      | c :: r3 =>
        if isDashCh c then
          manyG isSpaceCh r3 (fun r4 =>
            plusG isNumCh r4 (fun r5 =>
              manyG isSpaceCh r5 (fun r6 =>
                optAlts curAlts r6 (fun _ =>
                  some (taken cs r1, taken r4 r5)))))
        else none
      | [] => none))

/-- Pattern 5: `^(.+?)\s+([\d,\.]+)\s*(?:…)?\s*$` (anchored at both ends);
captures (name, price). -/
def p5At (cs : List Char) : Option (List Char × List Char) :=
  plusL isDotCh cs (fun r1 =>
    plusG isSpaceCh r1 (fun r2 =>
      plusG isNumCh r2 (fun r3 =>
        manyG isSpaceCh r3 (fun r4 =>
          optAlts curAlts r4 (fun r5 =>
            manyG isSpaceCh r5 (fun r6 =>
              match r6 with
              | [] => some (taken cs r1, taken r2 r3)
              | _ :: _ => none))))))

/-- The skip markers of `_extract_items_from_line` and the fallback pass:
`any(word in line.upper() for word in ['ОБЩО:', 'TOTAL:', 'СУМА:', 'СМЕТКА'])`. -/
def hasMarker (cs : List Char) : Bool :=
  ["ОБЩО:", "TOTAL:", "СУМА:", "СМЕТКА"].any
    (fun w => subIn w.toList (cs.map pyToUpper))

/-- A freshly constructed `ReceiptItem` (assigned later, not by the parser). -/
def mkItem (id : Nat) (name : String) (quantity : Nat) (unit_price price : ℚ) :
    ReceiptItem :=
  { id := id, name := name, quantity := quantity, unit_price := unit_price,
    price := price, assigned_to := [] }

/-- Python `/` on monetary values, raising `ZeroDivisionError` on a zero
denominator. -/
def qdivE (a b : ℚ) : Except String ℚ :=
  if b = 0 then Except.error "ZeroDivisionError" else Except.ok (a / b)

/-- Stage 5 of the cascade (Simple Item Price). -/
def extractP5E (id : Nat) (cs : List Char) : Except String (List ReceiptItem) :=
  match p5At cs with
  | some (g1, g2) =>
    let name := strip (String.mk g1)
    let price := cleanPrice (String.mk g2)
    if isValidItemName name ∧ 0 < price then Except.ok [mkItem id name 1 price price]
    else Except.ok []
  | none => Except.ok []

/-- Stage 4 of the cascade (Item - Price), falling through to stage 5. -/
def extractP4E (id : Nat) (cs : List Char) : Except String (List ReceiptItem) :=
  match p4At cs with
  | some (g1, g2) =>
    let name := strip (String.mk g1)
    let price := cleanPrice (String.mk g2)
    if isValidItemName name ∧ 0 < price then Except.ok [mkItem id name 1 price price]
    else extractP5E id cs
  | none => extractP5E id cs

/-- Stage 3 of the cascade (Item Qty x UnitPrice Total): also requires
`abs(quantity * unit_price - total_price) < 0.5`, else falls through. -/
def extractP3E (id : Nat) (cs : List Char) : Except String (List ReceiptItem) :=
  match searchR p3At cs with
  | some (g1, g2, g3, g4) =>
    let name := strip (String.mk g1)
    let quantity := natOfDigits g2
    let unit_price := cleanPrice (String.mk g3)
    let total_price := cleanPrice (String.mk g4)
    if isValidItemName name ∧ 0 < total_price ∧
        |(quantity : ℚ) * unit_price - total_price| < 1 / 2 then
      Except.ok [mkItem id name quantity unit_price total_price]
    else extractP4E id cs
  | none => extractP4E id cs

/-- Stage 2 of the cascade (Number Item - Price).  The unit price division
is guarded by `if quantity > 0`, exactly as in the code. -/
def extractP2E (id : Nat) (cs : List Char) : Except String (List ReceiptItem) :=
  match p2At cs with
  | some (g1, g2, g3) =>
    let quantity := natOfDigits g1
    let name := strip (String.mk g2)
    let total_price := cleanPrice (String.mk g3)
    match (if 0 < quantity then qdivE total_price (quantity : ℚ)
           else Except.ok total_price) with
    | Except.error e => Except.error e
    | Except.ok unit_price =>
      if isValidItemName name ∧ 0 < total_price then
        Except.ok [mkItem id name quantity unit_price total_price]
      else extractP3E id cs
  | none => extractP3E id cs

/-- `ReceiptParser._extract_items_from_line`: strip, skip marker lines, then
run the pattern cascade (stage 1 here, later stages by fall-through). -/
def extractLineE (id : Nat) (line0 : String) : Except String (List ReceiptItem) :=
  let line := strip line0
  if line = "" then Except.ok []
  else if hasMarker line.toList then Except.ok []
  else
    let cs := line.toList
    match searchR p1At cs with
    | some (g1, g2, g3) =>
      let name := strip (String.mk g1)
      let quantity := natOfDigits g2
      let total_price := cleanPrice (String.mk g3)
      match (if 0 < quantity then qdivE total_price (quantity : ℚ)
             else Except.ok total_price) with
      | Except.error e => Except.error e
      | Except.ok unit_price =>
        if isValidItemName name ∧ 0 < total_price then
          Except.ok [mkItem id name quantity unit_price total_price]
        else extractP2E id cs
    | none => extractP2E id cs

/-! ### ReceiptParser._find_total (receipt_parser.py, lines 234–244)

Modelled from the spec: `TOTAL_SUM_PATTERNS` is imported from
`constants.py`, which in the packaged sources does not define it; the spec
(§4.5 step 4) describes the scan as "language-specific keyword followed by
a number", which matches the `bg_total` and `en_total` patterns that
`constants.py` does define, so the list is modelled as
`[PATTERNS['bg_total'], PATTERNS['en_total']]`. -/

/-- The keyword alternation of `bg_total`:
`(?:ОБЩA?\s+СУМА|СУМА|TOTAL|Всичко|ОБЩО)` (the `A` in `ОБЩA?` is a Latin
letter in the source), with continuation `k` so that a failing
continuation backtracks into later alternatives. -/
def bgKwK (cs : List Char) (k : List Char → Option α) : Option α :=
  (match litCI ['О', 'Б', 'Щ'] cs with
   | some r1 =>
     (match litCI ['A'] r1 with
      | some r2 =>
        plusG isSpaceCh r2 (fun r3 =>
          match litCI ['С', 'У', 'М', 'А'] r3 with
          | some r4 => k r4
          | none => none)
      | none => none).orElse (fun _ =>
        plusG isSpaceCh r1 (fun r3 =>
          match litCI ['С', 'У', 'М', 'А'] r3 with
          | some r4 => k r4
          | none => none))
   | none => none).orElse (fun _ =>
  (match litCI ['С', 'У', 'М', 'А'] cs with
   | some r => k r
   | none => none).orElse (fun _ =>
  (match litCI ['T', 'O', 'T', 'A', 'L'] cs with
   | some r => k r
   | none => none).orElse (fun _ =>
  (match litCI ['В', 'с', 'и', 'ч', 'к', 'о'] cs with
   | some r => k r
   | none => none).orElse (fun _ =>
  match litCI ['О', 'Б', 'Щ', 'О'] cs with
  | some r => k r
  | none => none))))

/-- The keyword alternation of `en_total`:
`(?:TOTAL|Total|AMOUNT|SUM|Subtotal)` (under IGNORECASE). -/
def enKwK (cs : List Char) (k : List Char → Option α) : Option α :=
  (match litCI ['T', 'O', 'T', 'A', 'L'] cs with
   | some r => k r
   | none => none).orElse (fun _ =>
  (match litCI ['A', 'M', 'O', 'U', 'N', 'T'] cs with
   | some r => k r
   | none => none).orElse (fun _ =>
  (match litCI ['S', 'U', 'M'] cs with
   | some r => k r
   | none => none).orElse (fun _ =>
  match litCI ['S', 'u', 'b', 't', 'o', 't', 'a', 'l'] cs with
  | some r => k r
  | none => none)))

/-- `bg_total` anchored at one position: keyword, `[:\s]*`, then the
captured `([\d,\.]+)`; returns (capture, rest after the match). -/
def bgTotalAt (cs : List Char) : Option (List Char × List Char) :=
  bgKwK cs (fun r =>
    manyG (fun c => c = ':' ∨ isSpaceCh c) r (fun r2 =>
      plusG isNumCh r2 (fun r3 => some (taken r2 r3, r3))))

/-- `en_total` anchored at one position: keyword, `[:\s]*`, optional `\$?`,
then the captured `([\d,\.]+)`. -/
def enTotalAt (cs : List Char) : Option (List Char × List Char) :=
  enKwK cs (fun r =>
    manyG (fun c => c = ':' ∨ isSpaceCh c) r (fun r2 =>
      (match r2 with
       | '$' :: r3 => plusG isNumCh r3 (fun r4 => some (taken r3 r4, r4))
       | _ => none).orElse (fun _ =>
        plusG isNumCh r2 (fun r4 => some (taken r2 r4, r4)))))

/-- `re.finditer` + `if clean_price(group(1)) > 0: return` for one pattern:
scan left to right, resuming after each match; return the first positive
cleaned capture.  Fuel `length + 1` always suffices (every step drops at
least one character). -/
def scanPat (pat : List Char → Option (List Char × List Char)) :
    Nat → List Char → Option ℚ
  | 0, _ => none
  | fuel + 1, cs =>
    match pat cs with
    | some (g1, after) =>
      let t := cleanPrice (String.mk g1)
      if 0 < t then some t else scanPat pat fuel after
    | none =>
      match cs with
      | [] => none
      | _ :: rest => scanPat pat fuel rest

/-- `ReceiptParser._find_total`: first pattern-major positive match, 0.0 if
none. -/
def findTotal (text : String) : ℚ :=
  let cs := text.toList
  match scanPat bgTotalAt (cs.length + 1) cs with
  | some t => t
  | none =>
    match scanPat enTotalAt (cs.length + 1) cs with
    | some t => t
    | none => 0

/-! ### The fallback extraction pass of parse (receipt_parser.py, 298–321) -/

/-- The fallback price pattern `([\d,\.]+)\s*(?:лв|Г|Б|BGN|\$|USD|€|EUR)?\s*$`
anchored at one position; captures the price. -/
def fallbackPat (cs : List Char) : Option (List Char) :=
  plusG isNumCh cs (fun r1 =>
    manyG isSpaceCh r1 (fun r2 =>
      optAlts curAlts r2 (fun r3 =>
        manyG isSpaceCh r3 (fun r4 =>
          match r4 with
          | [] => some (taken cs r1)
          | _ :: _ => none))))

/-- `re.sub(r'^[\d\s\-\*]+', '', name_part)`: drop the leading run of
digits, whitespace, dashes and asterisks. -/
def dropLeadJunk (cs : List Char) : List Char :=
  cs.dropWhile (fun c => isDigitCh c ∨ isSpaceCh c ∨ c = '-' ∨ c = '*')

/-- `re.sub(r'\s*[-–]\s*$', '', name_part)`: remove one trailing dash
together with the whitespace around it (no change when there is none). -/
def stripTrailDash (cs : List Char) : List Char :=
  let r := cs.reverse
  let r1 := r.dropWhile isSpaceCh
  match r1 with
  | c :: r2 => if isDashCh c then ((r2.dropWhile isSpaceCh).reverse) else cs
  | [] => cs

/-- One line of the fallback pass: a trailing price in [1.0, 500] and a
cleaned-up name of more than 2 characters that validates. -/
def fallbackLine (id : Nat) (line0 : String) : List ReceiptItem :=
  let line := strip line0
  if line = "" then []
  else if hasMarker line.toList then []
  else
    match searchPos fallbackPat line.toList 0 with
    | some (start, g1) =>
      let price := cleanPrice (String.mk g1)
      if 1 ≤ price ∧ price ≤ 500 then
        let name0 := strip (String.mk (line.toList.take start))
        let name1 := strip (String.mk (dropLeadJunk name0.toList))
        let name2 := strip (String.mk (stripTrailDash name1.toList))
        if 2 < name2.length ∧ isValidItemName name2 then
          [mkItem id name2 1 price price]
        else []
      else []
    | none => []

/-! ### ReceiptParser.parse (receipt_parser.py, lines 261–348)

The ThreadPoolExecutor maps `_extract_items_from_line` over the lines in
order and the results are concatenated in order (`executor.map` preserves
input order), so the parallel pass is an ordered fold.  Item ids come from
`uuid.uuid4()`, of which only distinctness is observable; they are
modelled by the line index. -/

/-- The parallel extraction pass: `executor.map(_extract_items_from_line,
lines)` with the per-line results concatenated in line order. -/
def extractFold (lines : List String) : Except String (List ReceiptItem) :=
  lines.enum.foldlM
    (fun acc p => (extractLineE p.1 p.2).map (fun r => acc ++ r)) []

/-- `ReceiptParser.parse`.  Returns `Except` to make the claim "never
raises" contentful: every Python operation that can raise is modelled in
the `Except` monad. -/
def parseE (ocr_text : String) : Except String Receipt :=
  let cleaned := dedupLines ocr_text
  let currency := detectCurrency cleaned
  let lines := ((splitOnNl cleaned.toList).map String.mk).filter (fun l => strip l ≠ "")
  (extractFold lines).map
    (fun all_items =>
      let items :=
        if all_items = [] then
          lines.enum.foldl (fun acc p => acc ++ fallbackLine p.1 p.2) []
        else all_items
      let t := findTotal cleaned
      let total := if t = 0 ∧ items ≠ [] then (items.map (fun it => it.price)).sum else t
      { items := items, total := total, original_total := total, tip_amount := 0,
        currency := currency })

/-! ## improved_version_split.py — item-level duplicate merge (lines 248–343) -/

/-- `ReceiptParser._normalize_item_name` (improved_version_split.py):
lowercase, collapse whitespace, delete every character outside
`[\w\s\-а-я]`, strip. -/
def normalizeItemName (name : String) : String :=
  let lowered := name.toList.map pyToLower
  let collapsed := joinSpace (splitWs lowered)
  let removed := collapsed.filter (fun c =>
    isWordCh c ∨ isSpaceCh c ∨ c = '-' ∨ ('а' ≤ c ∧ c ≤ 'я'))
  String.mk (stripChars removed)

/-- `ReceiptParser._are_items_similar` (improved_version_split.py,
lines 279–304) with the default thresholds 0.85 / 0.01. -/
def areItemsSimilar (item1 item2 : ReceiptItem) : Bool :=
  let name1 := normalizeItemName item1.name
  let name2 := normalizeItemName item2.name
  if name1 = name2 ∧ |item1.price - item2.price| < 1 / 100 then true
  else
    let name_similarity := similarityScore name1 name2
    let price_match := |item1.price - item2.price| < 1 / 100
    if 85 / 100 ≤ name_similarity ∧ price_match then true
    else if 3 < name1.length ∧ 3 < name2.length then
      (subIn name1.toList name2.toList ∨ subIn name2.toList name1.toList) ∧ price_match
    else false

/-- Absorb one duplicate into the merged representative: quantity summed,
price recomputed as `unit_price * quantity`, `assigned_to` unioned in
order. -/
def mergeInto (m it2 : ReceiptItem) : ReceiptItem :=
  let q := m.quantity + it2.quantity
  { m with
    quantity := q,
    price := m.unit_price * (q : ℚ),
    assigned_to := it2.assigned_to.foldl
      (fun acc p => if acc.contains p then acc else acc ++ [p]) m.assigned_to }

/-- `ReceiptParser._merge_duplicate_items` as a fuelled recursion: take the
first unprocessed item, absorb every later unprocessed item similar to it
(similarity always against the *original* head, as in the code), recurse on
the rest.  This is the processed-index-set loop with the set made implicit
by filtering. -/
def mergeDupAux : Nat → List ReceiptItem → List ReceiptItem
  | 0, _ => []
  | _ + 1, [] => []
  | fuel + 1, item1 :: rest =>
    (rest.filter (fun it2 => areItemsSimilar item1 it2)).foldl mergeInto item1 ::
      mergeDupAux fuel (rest.filter (fun it2 => ! areItemsSimilar item1 it2))

def mergeDuplicateItems (items : List ReceiptItem) : List ReceiptItem :=
  mergeDupAux items.length items

/-- The group heads chosen by `_merge_duplicate_items` (same recursion
without the absorption). -/
def mergeReps : Nat → List ReceiptItem → List ReceiptItem
  | 0, _ => []
  | _ + 1, [] => []
  | fuel + 1, item1 :: rest =>
    item1 :: mergeReps fuel (rest.filter (fun it2 => ! areItemsSimilar item1 it2))

/-! # Lemmas and theorems -/

/-! ## Association-list (Python dict) lemmas -/

theorem sumVals_dictSet (m : List (String × ℚ)) (k : String) (v : ℚ) :
    sumVals (dictSet m k v) = sumVals m + v - dictGetD m k 0 := by
  induction m with
  | nil => simp [dictSet, sumVals, dictGetD]
  | cons e rest ih =>
    obtain ⟨k', v'⟩ := e
    by_cases h : k' = k
    · simp [dictSet, h, sumVals, dictGetD, List.find?]
      ring
    · simp only [dictSet, if_neg h, sumVals, List.map_cons, List.sum_cons]
      have hg : dictGetD ((k', v') :: rest) k 0 = dictGetD rest k 0 := by
        simp [dictGetD, List.find?, h]
      rw [hg]
      have := ih
      simp only [sumVals] at this
      rw [this]
      ring

theorem dictGetD_cons (a : String) (b : ℚ) (m : List (String × ℚ)) (q : String) (d : ℚ) :
    dictGetD ((a, b) :: m) q d = if a = q then b else dictGetD m q d := by
  by_cases h : a = q <;> simp [dictGetD, List.find?, h]

theorem dictMem_cons (a : String) (b : ℚ) (m : List (String × ℚ)) (q : String) :
    dictMem ((a, b) :: m) q = (decide (a = q) || dictMem m q) := by
  simp [dictMem]

theorem dictSet_cons (a : String) (b : ℚ) (m : List (String × ℚ)) (k : String) (v : ℚ) :
    dictSet ((a, b) :: m) k v =
      if a = k then (a, v) :: m else (a, b) :: dictSet m k v := by
  by_cases h : a = k <;> simp [dictSet, h]

theorem dictGetD_dictSet_self (m : List (String × ℚ)) (k : String) (v d : ℚ) :
    dictGetD (dictSet m k v) k d = v := by
  induction m with
  | nil => simp [dictSet, dictGetD, List.find?]
  | cons e rest ih =>
    obtain ⟨k', v'⟩ := e
    rw [dictSet_cons]
    by_cases h : k' = k
    · rw [if_pos h, dictGetD_cons, if_pos h]
    · rw [if_neg h, dictGetD_cons, if_neg h, ih]

theorem dictGetD_dictSet_ne (m : List (String × ℚ)) (k q : String) (v d : ℚ) (h : k ≠ q) :
    dictGetD (dictSet m k v) q d = dictGetD m q d := by
  induction m with
  | nil => simp [dictSet, dictGetD, List.find?, h]
  | cons e rest ih =>
    obtain ⟨k', v'⟩ := e
    rw [dictSet_cons]
    by_cases h' : k' = k
    · rw [if_pos h', dictGetD_cons, dictGetD_cons]
      subst h'
      rw [if_neg h, if_neg h]
    · rw [if_neg h', dictGetD_cons, dictGetD_cons, ih]

theorem dictMem_dictSet (m : List (String × ℚ)) (k q : String) (v : ℚ) :
    dictMem (dictSet m k v) q = true ↔ dictMem m q = true ∨ q = k := by
  induction m with
  | nil =>
    constructor
    · intro h
      have hk : k = q := by simpa [dictSet, dictMem] using h
      exact Or.inr hk.symm
    · rintro (h | rfl)
      · simp [dictMem] at h
      · simp [dictSet, dictMem]
  | cons e rest ih =>
    obtain ⟨k', v'⟩ := e
    rw [dictSet_cons]
    by_cases h : k' = k
    · rw [if_pos h, dictMem_cons, dictMem_cons]
      subst h
      by_cases h2 : k' = q
      · simp [h2]
      · have h3 : q ≠ k' := fun hh => h2 hh.symm
        simp [h2, h3]
    · rw [if_neg h, dictMem_cons, dictMem_cons]
      by_cases h2 : k' = q
      · simp [h2]
      · simp [h2, ih]

theorem dictMem_dictSet_of_mem (m : List (String × ℚ)) (k q : String) (v : ℚ)
    (h : dictMem m k = true) : dictMem (dictSet m k v) q = dictMem m q := by
  by_cases hq : dictMem m q = true
  · simp [hq, (dictMem_dictSet m k q v).2 (Or.inl hq)]
  · have : ¬ (dictMem (dictSet m k v) q = true) := by
      rw [dictMem_dictSet]
      rintro (h1 | rfl)
      · exact hq h1
      · exact hq h
    simp only [Bool.not_eq_true] at hq this
    rw [hq, this]

/-- Membership after a fold that `dictSet`s every element of `l`. -/
theorem dictMem_foldl_set (f : List (String × ℚ) → String → ℚ) (l : List String)
    (m : List (String × ℚ)) (q : String) :
    dictMem (l.foldl (fun m' p => dictSet m' p (f m' p)) m) q = true ↔
      dictMem m q = true ∨ q ∈ l := by
  induction l generalizing m with
  | nil => simp
  | cons p rest ih =>
    simp only [List.foldl_cons, List.mem_cons]
    rw [ih, dictMem_dictSet]
    tauto

theorem mem_entries_dictSet (m : List (String × ℚ)) (k : String) (v : ℚ)
    (e : String × ℚ) (h : e ∈ dictSet m k v) : e ∈ m ∨ e = (k, v) := by
  induction m with
  | nil => simpa [dictSet] using h
  | cons e' rest ih =>
    obtain ⟨k', v'⟩ := e'
    by_cases h' : k' = k
    · simp only [dictSet, if_pos h'] at h
      rcases List.mem_cons.1 h with h1 | h1
      · right; rw [h1, h']
      · left; exact List.mem_cons_of_mem _ h1
    · simp only [dictSet, if_neg h'] at h
      rcases List.mem_cons.1 h with h1 | h1
      · left; rw [h1]; exact List.mem_cons_self _ _
      · rcases ih h1 with h2 | h2
        · left; exact List.mem_cons_of_mem _ h2
        · right; exact h2

theorem sumVals_eq_zero (m : List (String × ℚ)) (h : ∀ e ∈ m, e.2 = 0) :
    sumVals m = 0 := by
  induction m with
  | nil => rfl
  | cons e rest ih =>
    have h1 : e.2 = 0 := h e (List.mem_cons_self _ _)
    have h2 : sumVals rest = 0 := ih (fun e' he' => h e' (List.mem_cons_of_mem _ he'))
    simp only [sumVals, List.map_cons, List.sum_cons] at h2 ⊢
    rw [h1, h2]
    ring

theorem init_entries_zero (l : List String) (m : List (String × ℚ))
    (h : ∀ e ∈ m, e.2 = 0) :
    ∀ e ∈ l.foldl (fun m' p => dictSet m' p 0) m, e.2 = 0 := by
  induction l generalizing m with
  | nil => exact h
  | cons p rest ih =>
    intro e he
    refine ih (dictSet m p 0) ?_ e he
    intro e' he'
    rcases mem_entries_dictSet m p 0 e' he' with h1 | h1
    · exact h e' h1
    · rw [h1]

theorem sumVals_init (l : List String) :
    sumVals (l.foldl (fun m' p => dictSet m' p 0) []) = 0 :=
  sumVals_eq_zero _ (init_entries_zero l [] (by simp))

/-! ## calculate_balances: conservation and keys -/

/-- An unguarded `b[p] += c` changes the value sum by exactly `c` (also when
`p` is absent, in which case the binding `(p, c)` is appended). -/
theorem sumVals_foldl_add (l : List String) (m : List (String × ℚ)) (c : ℚ) :
    sumVals (l.foldl (fun m' p => dictSet m' p (dictGetD m' p 0 + c)) m) =
      sumVals m + l.length * c := by
  induction l generalizing m with
  | nil => simp
  | cons p rest ih =>
    simp only [List.foldl_cons, List.length_cons]
    rw [ih, sumVals_dictSet]
    push_cast
    ring

theorem sumVals_guarded_fold (l : List String) (m : List (String × ℚ)) (c : ℚ)
    (h : ∀ p ∈ l, dictMem m p = true) :
    sumVals (l.foldl
      (fun m' p => if dictMem m' p then dictSet m' p (dictGetD m' p 0 + c) else m') m) =
      sumVals m + l.length * c := by
  induction l generalizing m with
  | nil => simp
  | cons p rest ih =>
    have hp : dictMem m p = true := h p (List.mem_cons_self _ _)
    simp only [List.foldl_cons, hp, if_pos, List.length_cons]
    rw [ih _ (fun p' hp' => by
      rw [dictMem_dictSet_of_mem m p p' _ hp]
      exact h p' (List.mem_cons_of_mem _ hp'))]
    rw [sumVals_dictSet]
    push_cast
    ring

/-- The guarded `b[p] += c` fold (the per-item loop) never changes the key
set. -/
theorem dictMem_guarded_fold (l : List String) (m : List (String × ℚ)) (c : ℚ) (q : String) :
    dictMem (l.foldl
      (fun m' p => if dictMem m' p then dictSet m' p (dictGetD m' p 0 + c) else m') m) q =
      dictMem m q := by
  induction l generalizing m with
  | nil => rfl
  | cons p rest ih =>
    simp only [List.foldl_cons]
    by_cases hp : dictMem m p = true
    · rw [ih]
      simp only [hp, if_pos]
      exact dictMem_dictSet_of_mem m p q _ hp
    · simp only [Bool.not_eq_true] at hp
      rw [hp]
      simp only [Bool.false_eq_true, if_false]
      exact ih m

theorem dictMem_addItemShares (m : List (String × ℚ)) (it : ReceiptItem) (q : String) :
    dictMem (addItemShares m it) q = dictMem m q := by
  unfold addItemShares
  by_cases he : it.assigned_to = []
  · simp [he]
  · rw [if_pos he]
    exact dictMem_guarded_fold it.assigned_to m _ q

theorem sumVals_addItemShares (m : List (String × ℚ)) (it : ReceiptItem)
    (h : ∀ p ∈ it.assigned_to, dictMem m p = true) :
    sumVals (addItemShares m it) =
      sumVals m + (if it.assigned_to.isEmpty then 0 else it.price) := by
  unfold addItemShares
  by_cases he : it.assigned_to = []
  · simp [he]
  · rw [if_pos he]
    have hEmpty : ¬ (it.assigned_to.isEmpty = true) := by
      simpa [List.isEmpty_iff] using he
    rw [if_neg hEmpty, sumVals_guarded_fold _ _ _ h]
    have hlen : (it.assigned_to.length : ℚ) ≠ 0 :=
      Nat.cast_ne_zero.2 (fun h0 => he (List.length_eq_zero.1 h0))
    field_simp

theorem dictMem_items_fold (items : List ReceiptItem) (m : List (String × ℚ)) (q : String) :
    dictMem (items.foldl addItemShares m) q = dictMem m q := by
  induction items generalizing m with
  | nil => rfl
  | cons it rest ih => simp only [List.foldl_cons]; rw [ih, dictMem_addItemShares]

theorem sumVals_items_fold (items : List ReceiptItem) (m : List (String × ℚ))
    (h : ∀ it ∈ items, ∀ p ∈ it.assigned_to, dictMem m p = true) :
    sumVals (items.foldl addItemShares m) = sumVals m + assignedTotal items := by
  induction items generalizing m with
  | nil => simp [assignedTotal]
  | cons it rest ih =>
    simp only [List.foldl_cons]
    rw [ih _ (fun it' hit' p hp => by
      rw [dictMem_addItemShares]
      exact h it' (List.mem_cons_of_mem _ hit') p hp)]
    rw [sumVals_addItemShares m it (h it (List.mem_cons_self _ _))]
    simp only [assignedTotal, List.filter_cons]
    by_cases he : it.assigned_to.isEmpty
    · simp [he]
    · simp [he]
      ring

theorem abs_floor_half_sub (y : ℚ) : |((⌊y + 1 / 2⌋ : ℤ) : ℚ) - y| ≤ 1 / 2 := by
  have h1 := Int.floor_le (y + 1 / 2)
  have h2 := Int.lt_floor_add_one (y + 1 / 2)
  rw [abs_le]
  constructor <;> linarith

theorem abs_quantize2_sub (q : ℚ) : |quantize2 q - q| ≤ 1 / 200 := by
  unfold quantize2
  by_cases h : q < 0
  · simp only [h, if_pos]
    have := abs_floor_half_sub (-q * 100)
    rw [abs_le] at this ⊢
    constructor <;> nlinarith [this.1, this.2]
  · simp only [h, if_neg]
    have := abs_floor_half_sub (q * 100)
    rw [abs_le] at this ⊢
    constructor <;> push_cast <;> nlinarith [this.1, this.2]

theorem sumVals_quantize_fold (l : List String) (m : List (String × ℚ)) :
    |sumVals (l.foldl (fun m' p => dictSet m' p (quantize2 (dictGetD m' p 0))) m) -
      sumVals m| ≤ (l.length : ℚ) * (1 / 200) := by
  induction l generalizing m with
  | nil => simp
  | cons p rest ih =>
    simp only [List.foldl_cons, List.length_cons]
    set m₁ := dictSet m p (quantize2 (dictGetD m p 0)) with hm₁
    have h1 : |sumVals m₁ - sumVals m| ≤ 1 / 200 := by
      rw [hm₁, sumVals_dictSet]
      have := abs_quantize2_sub (dictGetD m p 0)
      calc |sumVals m + quantize2 (dictGetD m p 0) - dictGetD m p 0 - sumVals m|
          = |quantize2 (dictGetD m p 0) - dictGetD m p 0| := by ring_nf
        _ ≤ 1 / 200 := this
    calc |sumVals (rest.foldl (fun m' p => dictSet m' p (quantize2 (dictGetD m' p 0))) m₁) -
          sumVals m|
        ≤ |sumVals (rest.foldl (fun m' p => dictSet m' p (quantize2 (dictGetD m' p 0))) m₁) -
            sumVals m₁| + |sumVals m₁ - sumVals m| := abs_sub_le _ _ _
      _ ≤ (rest.length : ℚ) * (1 / 200) + 1 / 200 := add_le_add (ih m₁) h1
      _ = ((rest.length : ℚ) + 1) * (1 / 200) := by ring
      _ = (((rest.length : ℕ) + 1 : ℕ) : ℚ) * (1 / 200) := by push_cast; ring

/-! ## Claim C2: balance conservation -/

unseal Rat.mul Rat.inv Rat.add Rat.sub Rat.ofScientific in
/-- C2 (counterexample): as stated, the conservation claim quantifies over
*all* item assignments; an item assigned to a name outside the people list
("B" here) contributes to nobody, so the balance sum (0) misses the item
price (10) by far more than `0.01 * |people|`. -/
theorem C2_counterexample :
    ¬ (|sumVals (calculate_balances
          { items := [{ id := 1, name := "Ghost", price := 10, assigned_to := ["B"] }] }
          ["A"]) -
        (assignedTotal [{ id := 1, name := "Ghost", price := 10, assigned_to := ["B"] }] +
          (0 : ℚ))| ≤
      ((["A"] : List String).length : ℚ) * (1 / 100)) := by
  decide

/-- C2 (amended): for a non-empty people list and items assigned only to
names of that list, the values of `calculate_balances` sum to the price
total of assigned items plus the tip, within `0.01 * |people|` (the only
inexactness is the final per-person round-half-up quantization, at most
0.005 each). -/
theorem C2_balance_conservation (r : Receipt) (people : List String)
    (hne : people ≠ []) (htip : 0 ≤ r.tip_amount)
    (hassign : ∀ it ∈ r.items, ∀ p ∈ it.assigned_to, p ∈ people) :
    |sumVals (calculate_balances r people) - (assignedTotal r.items + r.tip_amount)| ≤
      (people.length : ℚ) * (1 / 100) := by
  have hb : calculate_balances r people =
      people.foldl (fun m p => dictSet m p (quantize2 (dictGetD m p 0)))
        (if r.tip_amount > 0 then
          people.foldl
            (fun m p => dictSet m p (dictGetD m p 0 + r.tip_amount / (people.length : ℚ)))
            (r.items.foldl addItemShares (people.foldl (fun m p => dictSet m p 0) []))
        else r.items.foldl addItemShares (people.foldl (fun m p => dictSet m p 0) [])) := rfl
  rw [hb]
  have hlen0 : (people.length : ℚ) ≠ 0 :=
    Nat.cast_ne_zero.2 (fun h0 => hne (List.length_eq_zero.1 h0))
  have hmem0 : ∀ p ∈ people,
      dictMem (people.foldl (fun m p' => dictSet m p' 0) []) p = true := fun p hp =>
    (dictMem_foldl_set (fun _ _ => 0) people [] p).2 (Or.inr hp)
  have hsum1 : sumVals (r.items.foldl addItemShares
      (people.foldl (fun m p => dictSet m p 0) [])) = assignedTotal r.items := by
    rw [sumVals_items_fold _ _ (fun it hit p hp => hmem0 p (hassign it hit p hp)),
      sumVals_init, zero_add]
  have hsum2 : sumVals (if r.tip_amount > 0 then
      people.foldl
        (fun m p => dictSet m p (dictGetD m p 0 + r.tip_amount / (people.length : ℚ)))
        (r.items.foldl addItemShares (people.foldl (fun m p => dictSet m p 0) []))
      else r.items.foldl addItemShares (people.foldl (fun m p => dictSet m p 0) [])) =
      assignedTotal r.items + r.tip_amount := by
    by_cases ht : r.tip_amount > 0
    · rw [if_pos ht, sumVals_foldl_add, hsum1]
      have hc : (people.length : ℚ) * (r.tip_amount / (people.length : ℚ)) = r.tip_amount := by
        field_simp
      rw [hc]
    · rw [if_neg ht]
      have h0 : r.tip_amount = 0 := le_antisymm (not_lt.1 ht) htip
      rw [hsum1, h0, add_zero]
  calc |sumVals (people.foldl (fun m p => dictSet m p (quantize2 (dictGetD m p 0))) _) -
        (assignedTotal r.items + r.tip_amount)|
      = |sumVals (people.foldl (fun m p => dictSet m p (quantize2 (dictGetD m p 0))) _) -
        sumVals _| := by rw [hsum2]
    _ ≤ (people.length : ℚ) * (1 / 200) := sumVals_quantize_fold people _
    _ ≤ (people.length : ℚ) * (1 / 100) :=
        mul_le_mul_of_nonneg_left (by norm_num) (Nat.cast_nonneg _)

/-- C2 witness: a two-person receipt with a shared item and a tip satisfies
the amended conservation bound. -/
theorem C2_balance_conservation_witness :
    |sumVals (calculate_balances
        { items := [{ id := 1, name := "Pasta", price := 7, assigned_to := ["A", "B"] }],
          tip_amount := 1 } ["A", "B"]) -
      (assignedTotal [{ id := 1, name := "Pasta", price := 7, assigned_to := ["A", "B"] }] +
        (1 : ℚ))| ≤
    (((["A", "B"] : List String).length : ℚ)) * (1 / 100) :=
  C2_balance_conservation
    { items := [{ id := 1, name := "Pasta", price := 7, assigned_to := ["A", "B"] }],
      tip_amount := 1 } ["A", "B"] (by decide) (by norm_num) (by decide)

/-! ## Claim C10: balance keys and silent discarding -/

/-- The keys of `calculate_balances` are exactly the people list. -/
theorem calcBalances_mem (r : Receipt) (people : List String) (p : String) :
    dictMem (calculate_balances r people) p = true ↔ p ∈ people := by
  have hb : calculate_balances r people =
      people.foldl (fun m p' => dictSet m p' (quantize2 (dictGetD m p' 0)))
        (if r.tip_amount > 0 then
          people.foldl
            (fun m p' => dictSet m p' (dictGetD m p' 0 + r.tip_amount / (people.length : ℚ)))
            (r.items.foldl addItemShares (people.foldl (fun m p' => dictSet m p' 0) []))
        else r.items.foldl addItemShares (people.foldl (fun m p' => dictSet m p' 0) [])) := rfl
  rw [hb, dictMem_foldl_set]
  have hmem0 : dictMem (people.foldl (fun m p' => dictSet m p' 0) []) p = true ↔ p ∈ people := by
    rw [dictMem_foldl_set]
    simp [dictMem]
  by_cases ht : r.tip_amount > 0
  · rw [if_pos ht, dictMem_foldl_set, dictMem_items_fold, hmem0]
    tauto
  · rw [if_neg ht, dictMem_items_fold, hmem0]
    tauto

unseal Rat.mul Rat.inv Rat.add Rat.sub Rat.ofScientific in
/-- C10: `calculate_balances` returns a mapping whose keys are exactly the
people list, and the share of an assigned name outside the people list is
silently dropped: a 10.00 item split between "A" and the foreign name "X"
contributes only A's 5.00, and "X" appears nowhere. -/
theorem C10_balance_keys :
    (∀ (r : Receipt) (people : List String) (p : String),
        dictMem (calculate_balances r people) p = true ↔ p ∈ people) ∧
    calculate_balances
      { items := [{ id := 1, name := "Solo", price := 10, assigned_to := ["A", "X"] }],
        total := 10 } ["A"] = [("A", 5)] := by
  constructor
  · exact calcBalances_mem
  · decide

/-! ## Claim C5: empty people list -/

unseal Rat.mul Rat.inv Rat.add Rat.sub Rat.ofScientific in
/-- C5 (counterexample): `bill_splitter.optimize_settlements` with an empty
people list does not return an empty settlement list; the Decimal
equal-share division raises `DivisionByZero`. -/
theorem C5_counterexample :
    optimize_settlementsE { total := 10 } ([] : List String) [] =
      Except.error "DivisionByZero" ∧
    ∀ s : List Settlement,
      optimize_settlementsE { total := 10 } ([] : List String) [] ≠ Except.ok s := by
  have h1 : optimize_settlementsE { total := 10 } ([] : List String) [] =
      Except.error "DivisionByZero" := by rfl
  exact ⟨h1, fun s hs => by rw [h1] at hs; exact Except.noConfusion hs⟩

/-- C5 (amended): with an empty people list the basic_split variant returns
an empty settlement list (it guards `if not self.people`), while the
bill_splitter variant always fails with Decimal `DivisionByZero` on the
equal-share (or tip) division by `len(people)`. -/
theorem C5_empty_people :
    (∀ (items : List ReceiptItem) (total : ℚ),
        basic_optimize_settlements items [] total = []) ∧
    (∀ (r : Receipt) (b0 : List (String × ℚ)),
        optimize_settlementsE r [] b0 = Except.error "DivisionByZero") := by
  constructor
  · intro items total
    simp [basic_optimize_settlements]
  · intro r b0
    by_cases hb : b0 = []
    · subst hb
      show optimize_settlementsE r [] [] = _
      unfold optimize_settlementsE calculate_balancesE
      by_cases ht : r.tip_amount > 0 <;> simp [ht]
    · unfold optimize_settlementsE
      rw [if_neg hb]
      simp

/-! ## Claim C1: settlement zero-sum and re-application -/

unseal Rat.mul Rat.inv Rat.add Rat.sub Rat.ofScientific in
/-- C1 (counterexample): for the coherent five-person receipt `c1Receipt`
(balances 10.02, 10.02, 10.02, 9.97, 9.97 summing exactly to the total
50.00), the produced settlements are D→A 0.02 and E→C 0.02.  Applying them
in the claimed direction — subtracting from the `from_person` — moves D to
9.95, which is 0.05 away from the equal share 10.00, not within epsilon;
(with the corrective direction D lands on 9.99, but B still stays 0.02
away, so the 0.01 tolerance fails either way). -/
theorem C1_counterexample :
    "D" ∈ c1People ∧
    ¬ (|dictGetD (calculate_balances c1Receipt c1People) "D" 0 -
          paidBy (optimize_settlements c1Receipt c1People
            (calculate_balances c1Receipt c1People)) "D" +
          recvBy (optimize_settlements c1Receipt c1People
            (calculate_balances c1Receipt c1People)) "D" -
          c1Receipt.total / (c1People.length : ℚ)| ≤ SETTLEMENT_EPSILON) := by
  constructor
  · decide
  · decide

theorem paidBy_nil (p : String) : paidBy [] p = 0 := rfl

theorem recvBy_nil (p : String) : recvBy [] p = 0 := rfl

theorem paidBy_append (a b : List Settlement) (p : String) :
    paidBy (a ++ b) p = paidBy a p + paidBy b p := by
  simp [paidBy, List.filter_append]

theorem recvBy_append (a b : List Settlement) (p : String) :
    recvBy (a ++ b) p = recvBy a p + recvBy b p := by
  simp [recvBy, List.filter_append]

theorem paidBy_cons (s : Settlement) (S : List Settlement) (p : String) :
    paidBy (s :: S) p = (if s.from_person = p then s.amount else 0) + paidBy S p := by
  by_cases h : s.from_person = p <;> simp [paidBy, List.filter_cons, h]

theorem recvBy_cons (s : Settlement) (S : List Settlement) (p : String) :
    recvBy (s :: S) p = (if s.to_person = p then s.amount else 0) + recvBy S p := by
  by_cases h : s.to_person = p <;> simp [recvBy, List.filter_cons, h]

/-! ### The stable descending sort is a permutation -/

theorem insertDesc_perm (x : String × ℚ) (l : List (String × ℚ)) :
    List.Perm (insertDesc x l) (x :: l) := by
  induction l with
  | nil => exact List.Perm.refl _
  | cons y ys ih =>
    by_cases h : x.2 ≥ y.2
    · simp only [insertDesc, if_pos h]
      exact List.Perm.refl _
    · simp only [insertDesc, if_neg h]
      exact (ih.cons y).trans (List.Perm.swap _ _ _)

theorem sortDesc_perm (l : List (String × ℚ)) : List.Perm (sortDesc l) l := by
  induction l with
  | nil => exact List.Perm.refl _
  | cons x xs ih => exact (insertDesc_perm x (sortDesc xs)).trans (ih.cons x)

theorem mem_sortDesc (x : String × ℚ) (l : List (String × ℚ)) :
    x ∈ sortDesc l ↔ x ∈ l :=
  (sortDesc_perm l).mem_iff

theorem sumVals_sortDesc (l : List (String × ℚ)) : sumVals (sortDesc l) = sumVals l :=
  ((sortDesc_perm l).map Prod.snd).sum_eq

theorem length_sortDesc (l : List (String × ℚ)) : (sortDesc l).length = l.length :=
  (sortDesc_perm l).length_eq

theorem nodup_fst_sortDesc (l : List (String × ℚ)) (h : (l.map Prod.fst).Nodup) :
    ((sortDesc l).map Prod.fst).Nodup :=
  (((sortDesc_perm l).map Prod.fst).nodup_iff).2 h

/-! ### Membership in the classification lists -/

theorem mem_creditorsOf (b : List (String × ℚ)) (share : ℚ) (people : List String)
    (x : String × ℚ) :
    x ∈ creditorsOf b share people ↔
      x.1 ∈ people ∧ dictGetD b x.1 0 - share > SETTLEMENT_EPSILON ∧
        x.2 = dictGetD b x.1 0 - share := by
  simp only [creditorsOf, List.mem_filterMap]
  constructor
  · rintro ⟨p, hp, hf⟩
    by_cases hd : dictGetD b p 0 - share > SETTLEMENT_EPSILON
    · simp only [hd, if_pos, Option.some_inj] at hf
      subst hf
      exact ⟨hp, hd, rfl⟩
    · simp [hd] at hf
  · rintro ⟨hp, hd, hv⟩
    exact ⟨x.1, hp, by simp only [hd, if_pos]; rw [← hv]⟩

theorem mem_debtorsOf (b : List (String × ℚ)) (share : ℚ) (people : List String)
    (x : String × ℚ) :
    x ∈ debtorsOf b share people ↔
      x.1 ∈ people ∧ dictGetD b x.1 0 - share < -SETTLEMENT_EPSILON ∧
        x.2 = -(dictGetD b x.1 0 - share) := by
  simp only [debtorsOf, List.mem_filterMap]
  constructor
  · rintro ⟨p, hp, hf⟩
    by_cases hd : dictGetD b p 0 - share < -SETTLEMENT_EPSILON
    · simp only [hd, if_pos, Option.some_inj] at hf
      subst hf
      exact ⟨hp, hd, rfl⟩
    · simp [hd] at hf
  · rintro ⟨hp, hd, hv⟩
    exact ⟨x.1, hp, by simp only [hd, if_pos]; rw [← hv]⟩

/-- The key list of a classification `filterMap` is the corresponding
`filter` of the people list (the payload `g` is irrelevant). -/
theorem map_fst_classify (g : String → ℚ) (cond : String → Prop) [DecidablePred cond]
    (people : List String) :
    (people.filterMap (fun p => if cond p then some (p, g p) else none)).map Prod.fst =
      people.filter (fun p => decide (cond p)) := by
  induction people with
  | nil => rfl
  | cons p rest ih =>
    simp only [List.filterMap_cons, List.filter_cons]
    by_cases hd : cond p
    · simp only [if_pos hd, List.map_cons, ih, decide_eq_true_eq, hd, if_pos]
    · simp only [if_neg hd, ih]
      have : ¬ (decide (cond p) = true) := by simpa using hd
      simp [this]

theorem map_fst_creditorsOf (b : List (String × ℚ)) (share : ℚ) (people : List String) :
    (creditorsOf b share people).map Prod.fst =
      people.filter (fun p => decide (dictGetD b p 0 - share > SETTLEMENT_EPSILON)) :=
  map_fst_classify (fun p => dictGetD b p 0 - share)
    (fun p => dictGetD b p 0 - share > SETTLEMENT_EPSILON) people

theorem map_fst_debtorsOf (b : List (String × ℚ)) (share : ℚ) (people : List String) :
    (debtorsOf b share people).map Prod.fst =
      people.filter (fun p => decide (dictGetD b p 0 - share < -SETTLEMENT_EPSILON)) :=
  map_fst_classify (fun p => -(dictGetD b p 0 - share))
    (fun p => dictGetD b p 0 - share < -SETTLEMENT_EPSILON) people

theorem nodup_fst_creditorsOf (b : List (String × ℚ)) (share : ℚ) (people : List String)
    (h : people.Nodup) : ((creditorsOf b share people).map Prod.fst).Nodup := by
  rw [map_fst_creditorsOf]
  exact h.filter _

theorem nodup_fst_debtorsOf (b : List (String × ℚ)) (share : ℚ) (people : List String)
    (h : people.Nodup) : ((debtorsOf b share people).map Prod.fst).Nodup := by
  rw [map_fst_debtorsOf]
  exact h.filter _

/-! ### Unfolding equations and small facts for the settlement loop -/

theorem eps_pos : (0 : ℚ) < SETTLEMENT_EPSILON := by norm_num [SETTLEMENT_EPSILON]

theorem settleLoopAux_nil_c (cur : String) (fuel : Nat) (ds : List (String × ℚ)) :
    settleLoopAux cur fuel [] ds = [] := by
  cases fuel <;> rfl

theorem settleLoopAux_nil_d (cur : String) (fuel : Nat) (cs : List (String × ℚ)) :
    settleLoopAux cur fuel cs [] = [] := by
  cases fuel <;> cases cs <;> rfl

theorem settleLoopAux_zero (cur : String) (cs ds : List (String × ℚ)) :
    settleLoopAux cur 0 cs ds = [] := by
  cases cs <;> cases ds <;> rfl

/-- When the current creditor's remainder stays at or above epsilon, the
current debtor's must have dropped below it (the transferred amount is the
minimum of the two). -/
theorem min_branch (ca da : ℚ) (h1 : ¬ ca - min ca da < SETTLEMENT_EPSILON) :
    da - min ca da < SETTLEMENT_EPSILON := by
  rcases le_total ca da with h | h
  · exact absurd (by rw [min_eq_left h]; simp [SETTLEMENT_EPSILON]) h1
  · rw [min_eq_right h]
    simp [SETTLEMENT_EPSILON]

/-- One unfolding step of the settlement loop (the unreachable fourth
branch is eliminated using `min_branch`). -/
theorem settleLoopAux_cons (cur : String) (fuel : Nat) (cn : String) (ca : ℚ)
    (cs : List (String × ℚ)) (dn : String) (da : ℚ) (ds : List (String × ℚ)) :
    settleLoopAux cur (fuel + 1) ((cn, ca) :: cs) ((dn, da) :: ds) =
      (if min ca da > SETTLEMENT_EPSILON then
        [{ from_person := dn, to_person := cn, amount := quantize2 (min ca da),
           currency := cur }]
      else []) ++
      (if ca - min ca da < SETTLEMENT_EPSILON then
        (if da - min ca da < SETTLEMENT_EPSILON then settleLoopAux cur fuel cs ds
         else settleLoopAux cur fuel cs ((dn, da - min ca da) :: ds))
       else settleLoopAux cur fuel ((cn, ca - min ca da) :: cs) ds) := by
  by_cases h1 : ca - min ca da < SETTLEMENT_EPSILON
  · by_cases h2 : da - min ca da < SETTLEMENT_EPSILON
    · simp only [settleLoopAux, dif_pos h1, if_pos h2]
      rw [if_pos h1]
    · simp only [settleLoopAux, dif_pos h1, if_neg h2]
      rw [if_pos h1]
  · have h2 := min_branch ca da h1
    simp only [settleLoopAux, dif_neg h1, dif_pos h2]
    rw [if_neg h1]

theorem quantize2_nonneg (q : ℚ) (h : 0 ≤ q) : 0 ≤ quantize2 q := by
  unfold quantize2
  rw [if_neg (not_lt.2 h)]
  have h1 : (0 : ℤ) ≤ ⌊q * 100 + 1 / 2⌋ := Int.floor_nonneg.2 (by linarith)
  have h2 : (0 : ℚ) ≤ ((⌊q * 100 + 1 / 2⌋ : ℤ) : ℚ) := by exact_mod_cast h1
  linarith

/-- The amount actually recorded for one loop iteration. -/
theorem sub_emitVal_le (m : ℚ) :
    m - (if SETTLEMENT_EPSILON < m then quantize2 m else 0) ≤ SETTLEMENT_EPSILON := by
  by_cases h : SETTLEMENT_EPSILON < m
  · rw [if_pos h]
    have := abs_quantize2_sub m
    rw [abs_le] at this
    have h200 : (1 : ℚ) / 200 ≤ SETTLEMENT_EPSILON := by norm_num [SETTLEMENT_EPSILON]
    linarith [this.1]
  · rw [if_neg h]
    linarith [not_lt.1 h]

theorem emitVal_le (m : ℚ) (hm : 0 ≤ m) :
    (if SETTLEMENT_EPSILON < m then quantize2 m else 0) ≤ m + 1 / 200 := by
  by_cases h : SETTLEMENT_EPSILON < m
  · rw [if_pos h]
    have := abs_quantize2_sub m
    rw [abs_le] at this
    linarith [this.2]
  · rw [if_neg h]
    linarith

theorem emitVal_nonneg (m : ℚ) (hm : 0 ≤ m) :
    0 ≤ (if SETTLEMENT_EPSILON < m then quantize2 m else 0) := by
  by_cases h : SETTLEMENT_EPSILON < m
  · rw [if_pos h]
    exact quantize2_nonneg m hm
  · rw [if_neg h]

theorem sumVals_cons (k : String) (v : ℚ) (m : List (String × ℚ)) :
    sumVals ((k, v) :: m) = v + sumVals m := by
  simp [sumVals]

theorem sumVals_nonneg (l : List (String × ℚ)) (h : ∀ e ∈ l, 0 ≤ e.2) :
    0 ≤ sumVals l := by
  induction l with
  | nil => simp [sumVals]
  | cons e rest ih =>
    obtain ⟨k, v⟩ := e
    rw [sumVals_cons]
    have h1 := h (k, v) (List.mem_cons_self _ _)
    have h2 := ih (fun e he => h e (List.mem_cons_of_mem _ he))
    linarith

theorem entry_le_sumVals (l : List (String × ℚ)) (x : String) (a : ℚ)
    (hmem : (x, a) ∈ l) (hpos : ∀ e ∈ l, 0 ≤ e.2) : a ≤ sumVals l := by
  induction l with
  | nil => cases hmem
  | cons e rest ih =>
    obtain ⟨k, v⟩ := e
    rw [sumVals_cons]
    rcases List.mem_cons.1 hmem with h | h
    · have hrest : 0 ≤ sumVals rest :=
        sumVals_nonneg rest (fun e he => hpos e (List.mem_cons_of_mem _ he))
      have ha : a = v := congrArg Prod.snd h
      linarith
    · have h1 := ih h (fun e he => hpos e (List.mem_cons_of_mem _ he))
      have hv := hpos (k, v) (List.mem_cons_self _ _)
      linarith

theorem recvBy_single (s : Settlement) (x : String) :
    recvBy [s] x = if s.to_person = x then s.amount else 0 := by
  rw [show [s] = s :: [] from rfl, recvBy_cons, recvBy_nil, add_zero]

theorem paidBy_single (s : Settlement) (x : String) :
    paidBy [s] x = if s.from_person = x then s.amount else 0 := by
  rw [show [s] = s :: [] from rfl, paidBy_cons, paidBy_nil, add_zero]

theorem max_zero_le_of_le (x y : ℚ) (h : x ≤ y) : max x 0 ≤ max y 0 :=
  max_le (le_trans h (le_max_left _ _)) (le_max_right _ _)

theorem max_zero_add_le (x c : ℚ) (hc : 0 ≤ c) : max (x + c) 0 ≤ max x 0 + c :=
  max_le (add_le_add (le_max_left _ _) le_rfl) (by linarith [le_max_right x (0 : ℚ)])

/-! ### Settlement names come from the creditor and debtor lists -/

theorem settle_names (cur : String) :
    ∀ (fuel : Nat) (cs ds : List (String × ℚ)) (s : Settlement),
      s ∈ settleLoopAux cur fuel cs ds →
      s.to_person ∈ cs.map Prod.fst ∧ s.from_person ∈ ds.map Prod.fst := by
  intro fuel
  induction fuel with
  | zero =>
    intro cs ds s hs
    rw [settleLoopAux_zero] at hs
    cases hs
  | succ fuel ih =>
    intro cs ds s hs
    cases cs with
    | nil => rw [settleLoopAux_nil_c] at hs; cases hs
    | cons c cs' =>
    obtain ⟨cn, ca⟩ := c
    cases ds with
    | nil => rw [settleLoopAux_nil_d] at hs; cases hs
    | cons d ds' =>
    obtain ⟨dn, da⟩ := d
    rw [settleLoopAux_cons] at hs
    rcases List.mem_append.1 hs with h | h
    · by_cases he : min ca da > SETTLEMENT_EPSILON
      · rw [if_pos he] at h
        have hse := List.mem_singleton.1 h
        subst hse
        exact ⟨by simp, by simp⟩
      · rw [if_neg he] at h
        cases h
    · split_ifs at h with h1 h2
      · have hres := ih cs' ds' s h
        exact ⟨by simp only [List.map_cons]; exact List.mem_cons_of_mem _ hres.1,
               by simp only [List.map_cons]; exact List.mem_cons_of_mem _ hres.2⟩
      · have hres := ih cs' ((dn, da - min ca da) :: ds') s h
        simp only [List.map_cons] at hres ⊢
        exact ⟨List.mem_cons_of_mem _ hres.1, hres.2⟩
      · have hres := ih ((cn, ca - min ca da) :: cs') ds' s h
        simp only [List.map_cons] at hres ⊢
        exact ⟨hres.1, List.mem_cons_of_mem _ hres.2⟩

theorem recvBy_eq_zero_of_forall (S : List Settlement) (x : String)
    (h : ∀ s ∈ S, s.to_person ≠ x) : recvBy S x = 0 := by
  induction S with
  | nil => rfl
  | cons s S' ih =>
    rw [recvBy_cons, if_neg (h s (List.mem_cons_self _ _)),
      ih (fun s' hs' => h s' (List.mem_cons_of_mem _ hs')), add_zero]

theorem paidBy_eq_zero_of_forall (S : List Settlement) (x : String)
    (h : ∀ s ∈ S, s.from_person ≠ x) : paidBy S x = 0 := by
  induction S with
  | nil => rfl
  | cons s S' ih =>
    rw [paidBy_cons, if_neg (h s (List.mem_cons_self _ _)),
      ih (fun s' hs' => h s' (List.mem_cons_of_mem _ hs')), add_zero]

theorem recvBy_settle_zero (cur : String) (fuel : Nat) (cs ds : List (String × ℚ))
    (x : String) (hx : x ∉ cs.map Prod.fst) :
    recvBy (settleLoopAux cur fuel cs ds) x = 0 :=
  recvBy_eq_zero_of_forall _ _ (fun s hs hsx =>
    hx (hsx ▸ (settle_names cur fuel cs ds s hs).1))

theorem paidBy_settle_zero (cur : String) (fuel : Nat) (cs ds : List (String × ℚ))
    (x : String) (hx : x ∉ ds.map Prod.fst) :
    paidBy (settleLoopAux cur fuel cs ds) x = 0 :=
  paidBy_eq_zero_of_forall _ _ (fun s hs hsx =>
    hx (hsx ▸ (settle_names cur fuel cs ds s hs).2))

/-! ### Per-creditor upper bound on the rounded amounts received -/

theorem recvBy_settle_le (cur : String) :
    ∀ (fuel : Nat) (cs ds : List (String × ℚ)) (x : String) (a : ℚ),
      (∀ e ∈ cs, SETTLEMENT_EPSILON ≤ e.2) → (∀ e ∈ ds, SETTLEMENT_EPSILON ≤ e.2) →
      (cs.map Prod.fst).Nodup → (x, a) ∈ cs →
      recvBy (settleLoopAux cur fuel cs ds) x ≤ a + 1 / 200 * (1 + (ds.length : ℚ)) := by
  intro fuel
  induction fuel with
  | zero =>
    intro cs ds x a hcs hds hnd hmem
    rw [settleLoopAux_zero, recvBy_nil]
    have h1 := hcs (x, a) hmem
    have h2 : (0 : ℚ) ≤ (ds.length : ℚ) := Nat.cast_nonneg _
    nlinarith [eps_pos]
  | succ fuel ih =>
    intro cs ds x a hcs hds hnd hmem
    cases cs with
    | nil => cases hmem
    | cons c cs' =>
    obtain ⟨cn, ca⟩ := c
    cases ds with
    | nil =>
      rw [settleLoopAux_nil_d, recvBy_nil]
      have h1 := hcs (x, a) hmem
      have h2 : (0 : ℚ) ≤ ((List.length ([] : List (String × ℚ))) : ℚ) := Nat.cast_nonneg _
      nlinarith [eps_pos]
    | cons d ds' =>
    obtain ⟨dn, da⟩ := d
    rw [settleLoopAux_cons, recvBy_append]
    have hca : SETTLEMENT_EPSILON ≤ ca := hcs (cn, ca) (List.mem_cons_self _ _)
    have hda : SETTLEMENT_EPSILON ≤ da := hds (dn, da) (List.mem_cons_self _ _)
    have hm0 : 0 ≤ min ca da := le_trans (le_of_lt eps_pos) (le_min hca hda)
    have hmca : min ca da ≤ ca := min_le_left _ _
    have hemitm : (if SETTLEMENT_EPSILON < min ca da then quantize2 (min ca da) else 0) ≤
        min ca da + 1 / 200 := emitVal_le _ hm0
    have hemit0 : 0 ≤ (if SETTLEMENT_EPSILON < min ca da then quantize2 (min ca da) else 0) :=
      emitVal_nonneg _ hm0
    simp only [List.map_cons, List.nodup_cons] at hnd
    obtain ⟨hnd1, hnd2⟩ := hnd
    have hcs' : ∀ e ∈ cs', SETTLEMENT_EPSILON ≤ e.2 :=
      fun e he => hcs e (List.mem_cons_of_mem _ he)
    have hds' : ∀ e ∈ ds', SETTLEMENT_EPSILON ≤ e.2 :=
      fun e he => hds e (List.mem_cons_of_mem _ he)
    have hlen' : ((ds'.length : ℚ)) + 1 = (((dn, da) :: ds').length : ℚ) := by
      rw [List.length_cons]
      push_cast
      ring
    rcases List.mem_cons.1 hmem with hh | hh
    · -- x is the current creditor; substituting renames cn to x, ca to a
      have hx : x = cn := congrArg Prod.fst hh
      have ha : a = ca := congrArg Prod.snd hh
      subst hx
      subst ha
      have hrecvE : recvBy (if min a da > SETTLEMENT_EPSILON then
          [{ from_person := dn, to_person := x, amount := quantize2 (min a da),
             currency := cur }] else []) x ≤ min a da + 1 / 200 := by
        by_cases hq : min a da > SETTLEMENT_EPSILON
        · rw [if_pos hq, recvBy_single]
          simp only [if_pos rfl]
          rw [if_pos hq] at hemitm
          exact hemitm
        · rw [if_neg hq, recvBy_nil]
          linarith
      by_cases h1 : a - min a da < SETTLEMENT_EPSILON
      · by_cases h2 : da - min a da < SETTLEMENT_EPSILON
        · rw [if_pos h1, if_pos h2, recvBy_settle_zero cur fuel cs' ds' x hnd1]
          have hlen : (0 : ℚ) ≤ (((dn, da) :: ds').length : ℚ) := Nat.cast_nonneg _
          linarith
        · rw [if_pos h1, if_neg h2,
            recvBy_settle_zero cur fuel cs' ((dn, da - min a da) :: ds') x hnd1]
          have hlen : (0 : ℚ) ≤ ((((dn, da) :: ds').length : ℚ)) := Nat.cast_nonneg _
          linarith
      · rw [if_neg h1]
        have hrec := ih ((x, a - min a da) :: cs') ds' x (a - min a da)
          (by
            intro e he
            rcases List.mem_cons.1 he with he1 | he1
            · rw [he1]
              exact not_lt.1 h1
            · exact hcs' e he1)
          hds'
          (by simp only [List.map_cons, List.nodup_cons]; exact ⟨hnd1, hnd2⟩)
          (List.mem_cons_self _ _)
        rw [← hlen']
        linarith
    · -- x is a later creditor
      have hxcs : x ∈ cs'.map Prod.fst := List.mem_map.2 ⟨(x, a), hh, rfl⟩
      have hxcn : cn ≠ x := fun he => hnd1 (he ▸ hxcs)
      have hrecvE : recvBy (if min ca da > SETTLEMENT_EPSILON then
          [{ from_person := dn, to_person := cn, amount := quantize2 (min ca da),
             currency := cur }] else []) x = 0 := by
        by_cases hq : min ca da > SETTLEMENT_EPSILON
        · rw [if_pos hq, recvBy_single, if_neg hxcn]
        · rw [if_neg hq, recvBy_nil]
      rw [hrecvE, zero_add]
      by_cases h1 : ca - min ca da < SETTLEMENT_EPSILON
      · by_cases h2 : da - min ca da < SETTLEMENT_EPSILON
        · rw [if_pos h1, if_pos h2]
          have hrec := ih cs' ds' x a hcs' hds' hnd2 hh
          have hmono : ((ds'.length : ℚ)) ≤ (((dn, da) :: ds').length : ℚ) := by
            rw [← hlen']
            linarith
          linarith
        · rw [if_pos h1, if_neg h2]
          have hrec := ih cs' ((dn, da - min ca da) :: ds') x a hcs'
            (by
              intro e he
              rcases List.mem_cons.1 he with he1 | he1
              · rw [he1]
                exact not_lt.1 h2
              · exact hds' e he1)
            hnd2 hh
          simpa using hrec
      · rw [if_neg h1]
        have hrec := ih ((cn, ca - min ca da) :: cs') ds' x a
          (by
            intro e he
            rcases List.mem_cons.1 he with he1 | he1
            · rw [he1]
              exact not_lt.1 h1
            · exact hcs' e he1)
          hds'
          (by simp only [List.map_cons, List.nodup_cons]; exact ⟨hnd1, hnd2⟩)
          (List.mem_cons_of_mem _ hh)
        have hmono : ((ds'.length : ℚ)) ≤ (((dn, da) :: ds').length : ℚ) := by
          rw [← hlen']
          linarith
        linarith

/-! ### Per-creditor lower bound: almost everything owed is received -/

theorem settle_leftover_le (cur : String) :
    ∀ (fuel : Nat) (cs ds : List (String × ℚ)) (x : String) (a : ℚ),
      cs.length + ds.length ≤ fuel →
      (∀ e ∈ cs, SETTLEMENT_EPSILON ≤ e.2) → (∀ e ∈ ds, SETTLEMENT_EPSILON ≤ e.2) →
      (cs.map Prod.fst).Nodup → (x, a) ∈ cs →
      a - recvBy (settleLoopAux cur fuel cs ds) x ≤
        SETTLEMENT_EPSILON * (1 + 2 * (ds.length : ℚ)) +
          max (sumVals cs - sumVals ds) 0 := by
  intro fuel
  induction fuel with
  | zero =>
    intro cs ds x a hfuel hcs hds hnd hmem
    cases cs with
    | nil => cases hmem
    | cons c cs' => simp at hfuel
  | succ fuel ih =>
    intro cs ds x a hfuel hcs hds hnd hmem
    cases cs with
    | nil => cases hmem
    | cons c cs' =>
    obtain ⟨cn, ca⟩ := c
    cases ds with
    | nil =>
      rw [settleLoopAux_nil_d, recvBy_nil]
      have h1 : a ≤ sumVals ((cn, ca) :: cs') :=
        entry_le_sumVals _ _ _ hmem
          (fun e he => le_trans (le_of_lt eps_pos) (hcs e he))
      have h2 : sumVals ((cn, ca) :: cs') - sumVals [] ≤
          max (sumVals ((cn, ca) :: cs') - sumVals []) 0 := le_max_left _ _
      have h3 : sumVals ([] : List (String × ℚ)) = 0 := rfl
      have h4 : (0 : ℚ) ≤ (List.length ([] : List (String × ℚ)) : ℚ) := Nat.cast_nonneg _
      nlinarith [eps_pos]
    | cons d ds' =>
    obtain ⟨dn, da⟩ := d
    rw [settleLoopAux_cons, recvBy_append]
    have hca : SETTLEMENT_EPSILON ≤ ca := hcs (cn, ca) (List.mem_cons_self _ _)
    have hda : SETTLEMENT_EPSILON ≤ da := hds (dn, da) (List.mem_cons_self _ _)
    have hm0 : 0 ≤ min ca da := le_trans (le_of_lt eps_pos) (le_min hca hda)
    have hmca : min ca da ≤ ca := min_le_left _ _
    have hmda : min ca da ≤ da := min_le_right _ _
    have hsub : min ca da - (if SETTLEMENT_EPSILON < min ca da then
        quantize2 (min ca da) else 0) ≤ SETTLEMENT_EPSILON := sub_emitVal_le _
    have hemit0 : 0 ≤ (if SETTLEMENT_EPSILON < min ca da then quantize2 (min ca da) else 0) :=
      emitVal_nonneg _ hm0
    simp only [List.map_cons, List.nodup_cons] at hnd
    obtain ⟨hnd1, hnd2⟩ := hnd
    have hcs' : ∀ e ∈ cs', SETTLEMENT_EPSILON ≤ e.2 :=
      fun e he => hcs e (List.mem_cons_of_mem _ he)
    have hds' : ∀ e ∈ ds', SETTLEMENT_EPSILON ≤ e.2 :=
      fun e he => hds e (List.mem_cons_of_mem _ he)
    have hlend : ((((dn, da) :: ds').length : ℕ) : ℚ) = (ds'.length : ℚ) + 1 := by
      rw [List.length_cons]
      push_cast
      ring
    have hfuel' : cs'.length + ds'.length ≤ fuel := by
      simp only [List.length_cons] at hfuel
      omega
    have hfuel2 : cs'.length + ((dn, da - min ca da) :: ds').length ≤ fuel := by
      simp only [List.length_cons] at hfuel ⊢
      omega
    have hfuel3 : ((cn, ca - min ca da) :: cs').length + ds'.length ≤ fuel := by
      simp only [List.length_cons] at hfuel ⊢
      omega
    rw [sumVals_cons, sumVals_cons]
    have hmaxnn : (0 : ℚ) ≤ max (ca + sumVals cs' - (da + sumVals ds')) 0 := le_max_right _ _
    rcases List.mem_cons.1 hmem with hh | hh
    · -- x is the current creditor; substituting renames cn to x, ca to a
      have hx : x = cn := congrArg Prod.fst hh
      have ha : a = ca := congrArg Prod.snd hh
      subst hx
      subst ha
      have hE : recvBy (if min a da > SETTLEMENT_EPSILON then
          [{ from_person := dn, to_person := x, amount := quantize2 (min a da),
             currency := cur }] else []) x =
          (if SETTLEMENT_EPSILON < min a da then quantize2 (min a da) else 0) := by
        by_cases hq : min a da > SETTLEMENT_EPSILON
        · rw [if_pos hq, recvBy_single, if_pos rfl, if_pos hq]
        · rw [if_neg hq, recvBy_nil, if_neg hq]
      rw [hE]
      by_cases h1 : a - min a da < SETTLEMENT_EPSILON
      · by_cases h2 : da - min a da < SETTLEMENT_EPSILON
        · rw [if_pos h1, if_pos h2, recvBy_settle_zero cur fuel cs' ds' x hnd1, hlend]
          have hds0 : (0 : ℚ) ≤ (ds'.length : ℚ) := Nat.cast_nonneg _
          nlinarith [eps_pos]
        · rw [if_pos h1, if_neg h2,
            recvBy_settle_zero cur fuel cs' ((dn, da - min a da) :: ds') x hnd1, hlend]
          have hds0 : (0 : ℚ) ≤ (ds'.length : ℚ) := Nat.cast_nonneg _
          nlinarith [eps_pos]
      · rw [if_neg h1]
        have h2 := min_branch a da h1
        have hrec := ih ((x, a - min a da) :: cs') ds' x (a - min a da) hfuel3
          (by
            intro e he
            rcases List.mem_cons.1 he with he1 | he1
            · rw [he1]
              exact not_lt.1 h1
            · exact hcs' e he1)
          hds'
          (by simp only [List.map_cons, List.nodup_cons]; exact ⟨hnd1, hnd2⟩)
          (List.mem_cons_self _ _)
        rw [sumVals_cons] at hrec
        have hmax3 : max (a - min a da + sumVals cs' - sumVals ds') 0 ≤
            max (a + sumVals cs' - (da + sumVals ds')) 0 + SETTLEMENT_EPSILON := by
          have hle : a - min a da + sumVals cs' - sumVals ds' ≤
              (a + sumVals cs' - (da + sumVals ds')) + SETTLEMENT_EPSILON := by
            linarith
          exact le_trans (max_zero_le_of_le _ _ hle)
            (max_zero_add_le _ _ (le_of_lt eps_pos))
        rw [hlend]
        linarith
    · -- x is a later creditor
      have hxcs : x ∈ cs'.map Prod.fst := List.mem_map.2 ⟨(x, a), hh, rfl⟩
      have hxcn : cn ≠ x := fun he => hnd1 (he ▸ hxcs)
      have hE : recvBy (if min ca da > SETTLEMENT_EPSILON then
          [{ from_person := dn, to_person := cn, amount := quantize2 (min ca da),
             currency := cur }] else []) x = 0 := by
        by_cases hq : min ca da > SETTLEMENT_EPSILON
        · rw [if_pos hq, recvBy_single, if_neg hxcn]
        · rw [if_neg hq, recvBy_nil]
      rw [hE, zero_add]
      by_cases h1 : ca - min ca da < SETTLEMENT_EPSILON
      · by_cases h2 : da - min ca da < SETTLEMENT_EPSILON
        · rw [if_pos h1, if_pos h2]
          have hrec := ih cs' ds' x a hfuel' hcs' hds' hnd2 hh
          have hmax1 : max (sumVals cs' - sumVals ds') 0 ≤
              max (ca + sumVals cs' - (da + sumVals ds')) 0 + SETTLEMENT_EPSILON := by
            have hle : sumVals cs' - sumVals ds' ≤
                (ca + sumVals cs' - (da + sumVals ds')) + SETTLEMENT_EPSILON := by
              linarith
            exact le_trans (max_zero_le_of_le _ _ hle)
              (max_zero_add_le _ _ (le_of_lt eps_pos))
          rw [hlend]
          linarith
        · rw [if_pos h1, if_neg h2]
          have hrec := ih cs' ((dn, da - min ca da) :: ds') x a hfuel2 hcs'
            (by
              intro e he
              rcases List.mem_cons.1 he with he1 | he1
              · rw [he1]
                exact not_lt.1 h2
              · exact hds' e he1)
            hnd2 hh
          rw [sumVals_cons] at hrec
          have hmax2 : max (sumVals cs' - (da - min ca da + sumVals ds')) 0 ≤
              max (ca + sumVals cs' - (da + sumVals ds')) 0 := by
            apply max_zero_le_of_le
            linarith
          rw [hlend]
          simp only [List.length_cons] at hrec
          push_cast at hrec
          linarith
      · rw [if_neg h1]
        have h2 := min_branch ca da h1
        have hrec := ih ((cn, ca - min ca da) :: cs') ds' x a hfuel3
          (by
            intro e he
            rcases List.mem_cons.1 he with he1 | he1
            · rw [he1]
              exact not_lt.1 h1
            · exact hcs' e he1)
          hds'
          (by simp only [List.map_cons, List.nodup_cons]; exact ⟨hnd1, hnd2⟩)
          (List.mem_cons_of_mem _ hh)
        rw [sumVals_cons] at hrec
        have hmax3 : max (ca - min ca da + sumVals cs' - sumVals ds') 0 ≤
            max (ca + sumVals cs' - (da + sumVals ds')) 0 + SETTLEMENT_EPSILON := by
          have hle : ca - min ca da + sumVals cs' - sumVals ds' ≤
              (ca + sumVals cs' - (da + sumVals ds')) + SETTLEMENT_EPSILON := by
            linarith
          exact le_trans (max_zero_le_of_le _ _ hle)
            (max_zero_add_le _ _ (le_of_lt eps_pos))
        rw [hlend]
        linarith

/-! ### Per-debtor bounds (mirror images of the creditor bounds) -/

theorem paidBy_settle_le (cur : String) :
    ∀ (fuel : Nat) (cs ds : List (String × ℚ)) (x : String) (a : ℚ),
      (∀ e ∈ cs, SETTLEMENT_EPSILON ≤ e.2) → (∀ e ∈ ds, SETTLEMENT_EPSILON ≤ e.2) →
      (ds.map Prod.fst).Nodup → (x, a) ∈ ds →
      paidBy (settleLoopAux cur fuel cs ds) x ≤ a + 1 / 200 * (1 + (cs.length : ℚ)) := by
  intro fuel
  induction fuel with
  | zero =>
    intro cs ds x a hcs hds hnd hmem
    rw [settleLoopAux_zero, paidBy_nil]
    have h1 := hds (x, a) hmem
    have h2 : (0 : ℚ) ≤ (cs.length : ℚ) := Nat.cast_nonneg _
    nlinarith [eps_pos]
  | succ fuel ih =>
    intro cs ds x a hcs hds hnd hmem
    cases ds with
    | nil => cases hmem
    | cons d ds' =>
    obtain ⟨dn, da⟩ := d
    cases cs with
    | nil =>
      rw [settleLoopAux_nil_c, paidBy_nil]
      have h1 := hds (x, a) hmem
      nlinarith [eps_pos]
    | cons c cs' =>
    obtain ⟨cn, ca⟩ := c
    rw [settleLoopAux_cons, paidBy_append]
    have hca : SETTLEMENT_EPSILON ≤ ca := hcs (cn, ca) (List.mem_cons_self _ _)
    have hda : SETTLEMENT_EPSILON ≤ da := hds (dn, da) (List.mem_cons_self _ _)
    have hm0 : 0 ≤ min ca da := le_trans (le_of_lt eps_pos) (le_min hca hda)
    have hmca : min ca da ≤ ca := min_le_left _ _
    have hmda : min ca da ≤ da := min_le_right _ _
    have hemitm : (if SETTLEMENT_EPSILON < min ca da then quantize2 (min ca da) else 0) ≤
        min ca da + 1 / 200 := emitVal_le _ hm0
    have hemit0 : 0 ≤ (if SETTLEMENT_EPSILON < min ca da then quantize2 (min ca da) else 0) :=
      emitVal_nonneg _ hm0
    simp only [List.map_cons, List.nodup_cons] at hnd
    obtain ⟨hnd1, hnd2⟩ := hnd
    have hcs' : ∀ e ∈ cs', SETTLEMENT_EPSILON ≤ e.2 :=
      fun e he => hcs e (List.mem_cons_of_mem _ he)
    have hds' : ∀ e ∈ ds', SETTLEMENT_EPSILON ≤ e.2 :=
      fun e he => hds e (List.mem_cons_of_mem _ he)
    have hlenc : ((((cn, ca) :: cs').length : ℕ) : ℚ) = (cs'.length : ℚ) + 1 := by
      rw [List.length_cons]
      push_cast
      ring
    rcases List.mem_cons.1 hmem with hh | hh
    · -- x is the current debtor; substituting renames dn to x, da to a
      have hx : x = dn := congrArg Prod.fst hh
      have ha : a = da := congrArg Prod.snd hh
      subst hx
      subst ha
      have hE : paidBy (if min ca a > SETTLEMENT_EPSILON then
          [{ from_person := x, to_person := cn, amount := quantize2 (min ca a),
             currency := cur }] else []) x =
          (if SETTLEMENT_EPSILON < min ca a then quantize2 (min ca a) else 0) := by
        by_cases hq : min ca a > SETTLEMENT_EPSILON
        · rw [if_pos hq, paidBy_single, if_pos rfl, if_pos hq]
        · rw [if_neg hq, paidBy_nil, if_neg hq]
      rw [hE]
      by_cases h1 : ca - min ca a < SETTLEMENT_EPSILON
      · by_cases h2 : a - min ca a < SETTLEMENT_EPSILON
        · rw [if_pos h1, if_pos h2, paidBy_settle_zero cur fuel cs' ds' x hnd1, hlenc]
          have hcl : (0 : ℚ) ≤ (cs'.length : ℚ) := Nat.cast_nonneg _
          linarith
        · rw [if_pos h1, if_neg h2]
          have hrec := ih cs' ((x, a - min ca a) :: ds') x (a - min ca a) hcs'
            (by
              intro e he
              rcases List.mem_cons.1 he with he1 | he1
              · rw [he1]
                exact not_lt.1 h2
              · exact hds' e he1)
            (by simp only [List.map_cons, List.nodup_cons]; exact ⟨hnd1, hnd2⟩)
            (List.mem_cons_self _ _)
          rw [hlenc]
          linarith
      · rw [if_neg h1]
        rw [paidBy_settle_zero cur fuel ((cn, ca - min ca a) :: cs') ds' x hnd1, hlenc]
        have hcl : (0 : ℚ) ≤ (cs'.length : ℚ) := Nat.cast_nonneg _
        linarith
    · -- x is a later debtor
      have hxds : x ∈ ds'.map Prod.fst := List.mem_map.2 ⟨(x, a), hh, rfl⟩
      have hxdn : dn ≠ x := fun he => hnd1 (he ▸ hxds)
      have hE : paidBy (if min ca da > SETTLEMENT_EPSILON then
          [{ from_person := dn, to_person := cn, amount := quantize2 (min ca da),
             currency := cur }] else []) x = 0 := by
        by_cases hq : min ca da > SETTLEMENT_EPSILON
        · rw [if_pos hq, paidBy_single, if_neg hxdn]
        · rw [if_neg hq, paidBy_nil]
      rw [hE, zero_add]
      have hmono : ((cs'.length : ℚ)) ≤ (((cn, ca) :: cs').length : ℚ) := by
        rw [hlenc]
        linarith
      by_cases h1 : ca - min ca da < SETTLEMENT_EPSILON
      · by_cases h2 : da - min ca da < SETTLEMENT_EPSILON
        · have hrec := ih cs' ds' x a hcs' hds' hnd2 hh
          rw [if_pos h1, if_pos h2]
          linarith
        · have hrec := ih cs' ((dn, da - min ca da) :: ds') x a hcs'
            (by
              intro e he
              rcases List.mem_cons.1 he with he1 | he1
              · rw [he1]
                exact not_lt.1 h2
              · exact hds' e he1)
            (by simp only [List.map_cons, List.nodup_cons]; exact ⟨hnd1, hnd2⟩)
            (List.mem_cons_of_mem _ hh)
          rw [if_pos h1, if_neg h2]
          linarith
      · have hrec := ih ((cn, ca - min ca da) :: cs') ds' x a
          (by
            intro e he
            rcases List.mem_cons.1 he with he1 | he1
            · rw [he1]
              exact not_lt.1 h1
            · exact hcs' e he1)
          hds' hnd2 hh
        rw [if_neg h1]
        rw [hlenc]
        simp only [List.length_cons] at hrec
        push_cast at hrec
        linarith

theorem settle_dleftover_le (cur : String) :
    ∀ (fuel : Nat) (cs ds : List (String × ℚ)) (x : String) (a : ℚ),
      cs.length + ds.length ≤ fuel →
      (∀ e ∈ cs, SETTLEMENT_EPSILON ≤ e.2) → (∀ e ∈ ds, SETTLEMENT_EPSILON ≤ e.2) →
      (ds.map Prod.fst).Nodup → (x, a) ∈ ds →
      a - paidBy (settleLoopAux cur fuel cs ds) x ≤
        SETTLEMENT_EPSILON * (1 + 2 * (cs.length : ℚ)) +
          max (sumVals ds - sumVals cs) 0 := by
  intro fuel
  induction fuel with
  | zero =>
    intro cs ds x a hfuel hcs hds hnd hmem
    cases ds with
    | nil => cases hmem
    | cons d ds' => simp at hfuel
  | succ fuel ih =>
    intro cs ds x a hfuel hcs hds hnd hmem
    cases ds with
    | nil => cases hmem
    | cons d ds' =>
    obtain ⟨dn, da⟩ := d
    cases cs with
    | nil =>
      rw [settleLoopAux_nil_c, paidBy_nil]
      have h1 : a ≤ sumVals ((dn, da) :: ds') :=
        entry_le_sumVals _ _ _ hmem
          (fun e he => le_trans (le_of_lt eps_pos) (hds e he))
      have h2 : sumVals ((dn, da) :: ds') - sumVals [] ≤
          max (sumVals ((dn, da) :: ds') - sumVals []) 0 := le_max_left _ _
      have h3 : sumVals ([] : List (String × ℚ)) = 0 := rfl
      nlinarith [eps_pos]
    | cons c cs' =>
    obtain ⟨cn, ca⟩ := c
    rw [settleLoopAux_cons, paidBy_append]
    have hca : SETTLEMENT_EPSILON ≤ ca := hcs (cn, ca) (List.mem_cons_self _ _)
    have hda : SETTLEMENT_EPSILON ≤ da := hds (dn, da) (List.mem_cons_self _ _)
    have hm0 : 0 ≤ min ca da := le_trans (le_of_lt eps_pos) (le_min hca hda)
    have hmca : min ca da ≤ ca := min_le_left _ _
    have hmda : min ca da ≤ da := min_le_right _ _
    have hsub : min ca da - (if SETTLEMENT_EPSILON < min ca da then
        quantize2 (min ca da) else 0) ≤ SETTLEMENT_EPSILON := sub_emitVal_le _
    have hemit0 : 0 ≤ (if SETTLEMENT_EPSILON < min ca da then quantize2 (min ca da) else 0) :=
      emitVal_nonneg _ hm0
    simp only [List.map_cons, List.nodup_cons] at hnd
    obtain ⟨hnd1, hnd2⟩ := hnd
    have hcs' : ∀ e ∈ cs', SETTLEMENT_EPSILON ≤ e.2 :=
      fun e he => hcs e (List.mem_cons_of_mem _ he)
    have hds' : ∀ e ∈ ds', SETTLEMENT_EPSILON ≤ e.2 :=
      fun e he => hds e (List.mem_cons_of_mem _ he)
    have hlenc : ((((cn, ca) :: cs').length : ℕ) : ℚ) = (cs'.length : ℚ) + 1 := by
      rw [List.length_cons]
      push_cast
      ring
    have hfuel' : cs'.length + ds'.length ≤ fuel := by
      simp only [List.length_cons] at hfuel
      omega
    have hfuel2 : cs'.length + ((dn, da - min ca da) :: ds').length ≤ fuel := by
      simp only [List.length_cons] at hfuel ⊢
      omega
    have hfuel3 : ((cn, ca - min ca da) :: cs').length + ds'.length ≤ fuel := by
      simp only [List.length_cons] at hfuel ⊢
      omega
    rw [sumVals_cons, sumVals_cons]
    have hmaxnn : (0 : ℚ) ≤ max (da + sumVals ds' - (ca + sumVals cs')) 0 := le_max_right _ _
    rcases List.mem_cons.1 hmem with hh | hh
    · -- x is the current debtor; substituting renames dn to x, da to a
      have hx : x = dn := congrArg Prod.fst hh
      have ha : a = da := congrArg Prod.snd hh
      subst hx
      subst ha
      have hE : paidBy (if min ca a > SETTLEMENT_EPSILON then
          [{ from_person := x, to_person := cn, amount := quantize2 (min ca a),
             currency := cur }] else []) x =
          (if SETTLEMENT_EPSILON < min ca a then quantize2 (min ca a) else 0) := by
        by_cases hq : min ca a > SETTLEMENT_EPSILON
        · rw [if_pos hq, paidBy_single, if_pos rfl, if_pos hq]
        · rw [if_neg hq, paidBy_nil, if_neg hq]
      rw [hE]
      by_cases h1 : ca - min ca a < SETTLEMENT_EPSILON
      · by_cases h2 : a - min ca a < SETTLEMENT_EPSILON
        · rw [if_pos h1, if_pos h2, paidBy_settle_zero cur fuel cs' ds' x hnd1, hlenc]
          have hcl : (0 : ℚ) ≤ (cs'.length : ℚ) := Nat.cast_nonneg _
          nlinarith [eps_pos]
        · rw [if_pos h1, if_neg h2]
          have hrec := ih cs' ((x, a - min ca a) :: ds') x (a - min ca a) hfuel2 hcs'
            (by
              intro e he
              rcases List.mem_cons.1 he with he1 | he1
              · rw [he1]
                exact not_lt.1 h2
              · exact hds' e he1)
            (by simp only [List.map_cons, List.nodup_cons]; exact ⟨hnd1, hnd2⟩)
            (List.mem_cons_self _ _)
          rw [sumVals_cons] at hrec
          have hmax2 : max (a - min ca a + sumVals ds' - sumVals cs') 0 ≤
              max (a + sumVals ds' - (ca + sumVals cs')) 0 + SETTLEMENT_EPSILON := by
            have hle : a - min ca a + sumVals ds' - sumVals cs' ≤
                (a + sumVals ds' - (ca + sumVals cs')) + SETTLEMENT_EPSILON := by
              linarith
            exact le_trans (max_zero_le_of_le _ _ hle)
              (max_zero_add_le _ _ (le_of_lt eps_pos))
          rw [hlenc]
          linarith
      · rw [if_neg h1]
        have h2 := min_branch ca a h1
        rw [paidBy_settle_zero cur fuel ((cn, ca - min ca a) :: cs') ds' x hnd1, hlenc]
        have hcl : (0 : ℚ) ≤ (cs'.length : ℚ) := Nat.cast_nonneg _
        nlinarith [eps_pos]
    · -- x is a later debtor
      have hxds : x ∈ ds'.map Prod.fst := List.mem_map.2 ⟨(x, a), hh, rfl⟩
      have hxdn : dn ≠ x := fun he => hnd1 (he ▸ hxds)
      have hE : paidBy (if min ca da > SETTLEMENT_EPSILON then
          [{ from_person := dn, to_person := cn, amount := quantize2 (min ca da),
             currency := cur }] else []) x = 0 := by
        by_cases hq : min ca da > SETTLEMENT_EPSILON
        · rw [if_pos hq, paidBy_single, if_neg hxdn]
        · rw [if_neg hq, paidBy_nil]
      rw [hE, zero_add]
      by_cases h1 : ca - min ca da < SETTLEMENT_EPSILON
      · by_cases h2 : da - min ca da < SETTLEMENT_EPSILON
        · rw [if_pos h1, if_pos h2]
          have hrec := ih cs' ds' x a hfuel' hcs' hds' hnd2 hh
          have hmax1 : max (sumVals ds' - sumVals cs') 0 ≤
              max (da + sumVals ds' - (ca + sumVals cs')) 0 + SETTLEMENT_EPSILON := by
            have hle : sumVals ds' - sumVals cs' ≤
                (da + sumVals ds' - (ca + sumVals cs')) + SETTLEMENT_EPSILON := by
              linarith
            exact le_trans (max_zero_le_of_le _ _ hle)
              (max_zero_add_le _ _ (le_of_lt eps_pos))
          rw [hlenc]
          linarith
        · rw [if_pos h1, if_neg h2]
          have hrec := ih cs' ((dn, da - min ca da) :: ds') x a hfuel2 hcs'
            (by
              intro e he
              rcases List.mem_cons.1 he with he1 | he1
              · rw [he1]
                exact not_lt.1 h2
              · exact hds' e he1)
            (by simp only [List.map_cons, List.nodup_cons]; exact ⟨hnd1, hnd2⟩)
            (List.mem_cons_of_mem _ hh)
          rw [sumVals_cons] at hrec
          have hmax2 : max (da - min ca da + sumVals ds' - sumVals cs') 0 ≤
              max (da + sumVals ds' - (ca + sumVals cs')) 0 + SETTLEMENT_EPSILON := by
            have hle : da - min ca da + sumVals ds' - sumVals cs' ≤
                (da + sumVals ds' - (ca + sumVals cs')) + SETTLEMENT_EPSILON := by
              linarith
            exact le_trans (max_zero_le_of_le _ _ hle)
              (max_zero_add_le _ _ (le_of_lt eps_pos))
          rw [hlenc]
          linarith
      · rw [if_neg h1]
        have h2 := min_branch ca da h1
        have hrec := ih ((cn, ca - min ca da) :: cs') ds' x a hfuel3
          (by
            intro e he
            rcases List.mem_cons.1 he with he1 | he1
            · rw [he1]
              exact not_lt.1 h1
            · exact hcs' e he1)
          hds' hnd2 hh
        rw [sumVals_cons] at hrec
        have hmax3 : max (sumVals ds' - (ca - min ca da + sumVals cs')) 0 ≤
            max (da + sumVals ds' - (ca + sumVals cs')) 0 := by
          apply max_zero_le_of_le
          linarith
        rw [hlenc]
        simp only [List.length_cons] at hrec
        push_cast at hrec
        linarith

/-! ### Sums over the people list -/

theorem sumOver_nil (f : String → ℚ) : sumOver [] f = 0 := rfl

theorem sumOver_cons (p : String) (rest : List String) (f : String → ℚ) :
    sumOver (p :: rest) f = f p + sumOver rest f := by
  simp [sumOver]

theorem sumOver_congr (P : List String) (f g : String → ℚ)
    (h : ∀ p ∈ P, f p = g p) : sumOver P f = sumOver P g := by
  induction P with
  | nil => rfl
  | cons p rest ih =>
    rw [sumOver_cons, sumOver_cons, h p (List.mem_cons_self _ _),
      ih (fun p' hp' => h p' (List.mem_cons_of_mem _ hp'))]

theorem sumOver_add (P : List String) (f g : String → ℚ) :
    sumOver P (fun p => f p + g p) = sumOver P f + sumOver P g := by
  induction P with
  | nil => simp [sumOver]
  | cons p rest ih =>
    rw [sumOver_cons, sumOver_cons, sumOver_cons, ih]
    ring

theorem sumOver_sub_const (P : List String) (f : String → ℚ) (c : ℚ) :
    sumOver P (fun p => f p - c) = sumOver P f - (P.length : ℚ) * c := by
  induction P with
  | nil => simp [sumOver]
  | cons p rest ih =>
    rw [sumOver_cons, sumOver_cons, ih, List.length_cons]
    push_cast
    ring

theorem sumOver_zero (P : List String) : sumOver P (fun _ => 0) = 0 := by
  induction P with
  | nil => rfl
  | cons p rest ih => rw [sumOver_cons, ih]; ring

theorem sumOver_indicator_zero (P : List String) (a : String) (c : ℚ) (ha : a ∉ P) :
    sumOver P (fun p => if a = p then c else 0) = 0 := by
  induction P with
  | nil => rfl
  | cons p rest ih =>
    rw [sumOver_cons, if_neg (fun he => ha (List.mem_cons.2 (Or.inl he))),
      ih (fun hm => ha (List.mem_cons_of_mem _ hm)), add_zero]

theorem sumOver_indicator (P : List String) (a : String) (c : ℚ) (ha : a ∈ P)
    (hnd : P.Nodup) : sumOver P (fun p => if a = p then c else 0) = c := by
  induction P with
  | nil => cases ha
  | cons p rest ih =>
    rw [List.nodup_cons] at hnd
    rcases List.mem_cons.1 ha with rfl | hm
    · rw [sumOver_cons, if_pos rfl, sumOver_indicator_zero rest a c hnd.1, add_zero]
    · rw [sumOver_cons, if_neg (fun he => hnd.1 (by rw [← he]; exact hm)), ih hm hnd.2,
        zero_add]

theorem sumOver_paidBy (S : List Settlement) (P : List String)
    (hfrom : ∀ s ∈ S, s.from_person ∈ P) (hnd : P.Nodup) :
    sumOver P (paidBy S) = (S.map Settlement.amount).sum := by
  induction S with
  | nil =>
    rw [show (([] : List Settlement).map Settlement.amount).sum = 0 from rfl]
    rw [sumOver_congr P (paidBy []) (fun _ => 0) (fun p _ => paidBy_nil p), sumOver_zero]
  | cons s S' ih =>
    have hstep : ∀ p ∈ P, paidBy (s :: S') p =
        (fun q => (if s.from_person = q then s.amount else 0) + paidBy S' q) p :=
      fun p _ => paidBy_cons s S' p
    rw [sumOver_congr P _ _ hstep, sumOver_add,
      sumOver_indicator P s.from_person s.amount (hfrom s (List.mem_cons_self _ _)) hnd,
      ih (fun s' hs' => hfrom s' (List.mem_cons_of_mem _ hs'))]
    simp

theorem sumOver_recvBy (S : List Settlement) (P : List String)
    (hto : ∀ s ∈ S, s.to_person ∈ P) (hnd : P.Nodup) :
    sumOver P (recvBy S) = (S.map Settlement.amount).sum := by
  induction S with
  | nil =>
    rw [show (([] : List Settlement).map Settlement.amount).sum = 0 from rfl]
    rw [sumOver_congr P (recvBy []) (fun _ => 0) (fun p _ => recvBy_nil p), sumOver_zero]
  | cons s S' ih =>
    have hstep : ∀ p ∈ P, recvBy (s :: S') p =
        (fun q => (if s.to_person = q then s.amount else 0) + recvBy S' q) p :=
      fun p _ => recvBy_cons s S' p
    rw [sumOver_congr P _ _ hstep, sumOver_add,
      sumOver_indicator P s.to_person s.amount (hto s (List.mem_cons_self _ _)) hnd,
      ih (fun s' hs' => hto s' (List.mem_cons_of_mem _ hs'))]
    simp

theorem abs_list_sum_le (l : List ℚ) (c : ℚ) (h : ∀ x ∈ l, |x| ≤ c) :
    |l.sum| ≤ c * l.length := by
  induction l with
  | nil => simp
  | cons x rest ih =>
    rw [List.sum_cons, List.length_cons]
    have h1 := h x (List.mem_cons_self _ _)
    have h2 := ih (fun x' hx' => h x' (List.mem_cons_of_mem _ hx'))
    calc |x + rest.sum| ≤ |x| + |rest.sum| := abs_add _ _
      _ ≤ c + c * rest.length := add_le_add h1 h2
      _ = c * (rest.length + 1) := by ring
      _ = c * ((rest.length + 1 : ℕ) : ℚ) := by push_cast; ring

/-- Classification of the people list: everyone is a creditor, a debtor, or
within epsilon of the equal share; the within-epsilon differences account
for the gap between the creditor and debtor totals. -/
theorem classify_decomp (b : List (String × ℚ)) (share : ℚ) (people : List String) :
    ∃ exc : List ℚ, (∀ x ∈ exc, |x| ≤ SETTLEMENT_EPSILON) ∧
      (exc.length + (creditorsOf b share people).length +
        (debtorsOf b share people).length = people.length) ∧
      sumOver people (fun p => dictGetD b p 0 - share) =
        sumVals (creditorsOf b share people) - sumVals (debtorsOf b share people) +
          exc.sum := by
  induction people with
  | nil =>
    exact ⟨[], by simp, by simp [creditorsOf, debtorsOf],
      by simp [sumOver, creditorsOf, debtorsOf, sumVals]⟩
  | cons p rest ih =>
    obtain ⟨exc, hexc, hlen, hsum⟩ := ih
    by_cases h1 : dictGetD b p 0 - share > SETTLEMENT_EPSILON
    · have hnotd : ¬ (dictGetD b p 0 - share < -SETTLEMENT_EPSILON) := by
        have := eps_pos
        intro h2
        linarith
      have hc : creditorsOf b share (p :: rest) =
          (p, dictGetD b p 0 - share) :: creditorsOf b share rest := by
        simp only [creditorsOf, List.filterMap_cons, if_pos h1]
      have hd : debtorsOf b share (p :: rest) = debtorsOf b share rest := by
        simp only [debtorsOf, List.filterMap_cons, if_neg hnotd]
      refine ⟨exc, hexc, ?_, ?_⟩
      · rw [hc, hd, List.length_cons, List.length_cons]
        omega
      · rw [hc, hd, sumOver_cons, sumVals_cons]
        linarith
    · by_cases h2 : dictGetD b p 0 - share < -SETTLEMENT_EPSILON
      · have hc : creditorsOf b share (p :: rest) = creditorsOf b share rest := by
          simp only [creditorsOf, List.filterMap_cons, if_neg h1]
        have hd : debtorsOf b share (p :: rest) =
            (p, -(dictGetD b p 0 - share)) :: debtorsOf b share rest := by
          simp only [debtorsOf, List.filterMap_cons, if_pos h2]
        refine ⟨exc, hexc, ?_, ?_⟩
        · rw [hc, hd, List.length_cons, List.length_cons]
          omega
        · rw [hc, hd, sumOver_cons, sumVals_cons]
          linarith
      · have hc : creditorsOf b share (p :: rest) = creditorsOf b share rest := by
          simp only [creditorsOf, List.filterMap_cons, if_neg h1]
        have hd : debtorsOf b share (p :: rest) = debtorsOf b share rest := by
          simp only [debtorsOf, List.filterMap_cons, if_neg h2]
        refine ⟨(dictGetD b p 0 - share) :: exc, ?_, ?_, ?_⟩
        · intro x hx
          rcases List.mem_cons.1 hx with rfl | hx1
          · exact abs_le.2 ⟨not_lt.1 h2, not_lt.1 h1⟩
          · exact hexc x hx1
        · rw [hc, hd, List.length_cons, List.length_cons]
          omega
        · rw [hc, hd, sumOver_cons, List.sum_cons]
          linarith

theorem mem_fst_sortDesc (l : List (String × ℚ)) (p : String) :
    p ∈ (sortDesc l).map Prod.fst ↔ p ∈ l.map Prod.fst :=
  ((sortDesc_perm l).map Prod.fst).mem_iff

/-- C1 (amended): for balances produced by `calculate_balances` over a
non-empty, duplicate-free people list, provided those balances sum exactly
to `receipt.total`, the settlement list of `optimize_settlements` is
zero-sum — the total paid by debtors equals the total received by
creditors, exactly — and applying every settlement in the corrective
direction (adding its amount to the `from_person`, subtracting it from the
`to_person`) leaves every person within `0.01 * (2 * |people| + 1)` of
`equal_share = receipt.total / |people|`.  (The per-person tolerance must
grow with the number of people: epsilon cutoffs, sub-epsilon discards in
the pairing loop and the final rounding of each emitted amount each
contribute up to 0.01 per party, as the `C1_counterexample` shows.) -/
theorem C1_settlements_bounded (r : Receipt) (people : List String)
    (hne : people ≠ []) (hnd : people.Nodup)
    (hsum : sumOver people (fun p => dictGetD (calculate_balances r people) p 0) = r.total) :
    sumOver people (paidBy (optimize_settlements r people (calculate_balances r people))) =
      sumOver people (recvBy (optimize_settlements r people (calculate_balances r people))) ∧
    ∀ p ∈ people,
      |dictGetD (calculate_balances r people) p 0 +
          paidBy (optimize_settlements r people (calculate_balances r people)) p -
          recvBy (optimize_settlements r people (calculate_balances r people)) p -
          r.total / (people.length : ℚ)| ≤
        SETTLEMENT_EPSILON * (2 * (people.length : ℚ) + 1) := by
  set b := calculate_balances r people with hbdef
  set share := r.total / (people.length : ℚ) with hsharedef
  obtain ⟨p0, hp0⟩ : ∃ p0, p0 ∈ people := by
    cases people with
    | nil => exact absurd rfl hne
    | cons q qs => exact ⟨q, List.mem_cons_self _ _⟩
  have hbne : b ≠ [] := by
    intro h0
    have hm := (calcBalances_mem r people p0).2 hp0
    rw [← hbdef, h0] at hm
    simp [dictMem] at hm
  have hopt : optimize_settlements r people b =
      settleLoop r.currency (sortDesc (creditorsOf b share people))
        (sortDesc (debtorsOf b share people)) := by
    simp only [optimize_settlements]
    rw [if_neg hbne]
  set cs := sortDesc (creditorsOf b share people) with hcsdef
  set ds := sortDesc (debtorsOf b share people) with hdsdef
  have hloop : settleLoop r.currency cs ds =
      settleLoopAux r.currency (cs.length + ds.length) cs ds := rfl
  rw [hopt, hloop]
  -- invariants for the sorted lists
  have hcsE : ∀ e ∈ cs, SETTLEMENT_EPSILON ≤ e.2 := by
    intro e he
    have h1 := (mem_sortDesc e _).1 (hcsdef ▸ he)
    have h2 := (mem_creditorsOf b share people e).1 h1
    rw [h2.2.2]
    exact le_of_lt h2.2.1
  have hdsE : ∀ e ∈ ds, SETTLEMENT_EPSILON ≤ e.2 := by
    intro e he
    have h1 := (mem_sortDesc e _).1 (hdsdef ▸ he)
    have h2 := (mem_debtorsOf b share people e).1 h1
    rw [h2.2.2]
    linarith [h2.2.1]
  have hcsN : (cs.map Prod.fst).Nodup := by
    rw [hcsdef]
    exact nodup_fst_sortDesc _ (nodup_fst_creditorsOf b share people hnd)
  have hdsN : (ds.map Prod.fst).Nodup := by
    rw [hdsdef]
    exact nodup_fst_sortDesc _ (nodup_fst_debtorsOf b share people hnd)
  -- the signed differences over the whole people list sum to zero
  have hn0 : (people.length : ℚ) ≠ 0 :=
    Nat.cast_ne_zero.2 (fun h0 => hne (List.length_eq_zero.1 h0))
  have hdelta : sumOver people (fun p => dictGetD b p 0 - share) = 0 := by
    rw [sumOver_sub_const, hsum, hsharedef]
    field_simp
  obtain ⟨exc, hexc, hlenEq, hsumEq⟩ := classify_decomp b share people
  have habs : |exc.sum| ≤ SETTLEMENT_EPSILON * exc.length :=
    abs_list_sum_le exc _ hexc
  have hD : sumVals cs - sumVals ds = -exc.sum := by
    rw [hcsdef, hdsdef, sumVals_sortDesc, sumVals_sortDesc]
    linarith [hsumEq, hdelta]
  have hcsl : cs.length = (creditorsOf b share people).length := by
    rw [hcsdef]
    exact length_sortDesc _
  have hdsl : ds.length = (debtorsOf b share people).length := by
    rw [hdsdef]
    exact length_sortDesc _
  have hcountQ : (exc.length : ℚ) + (cs.length : ℚ) + (ds.length : ℚ) =
      (people.length : ℚ) := by
    rw [hcsl, hdsl]
    exact_mod_cast congrArg (fun n : ℕ => (n : ℚ)) hlenEq
  have hmaxD : max (sumVals cs - sumVals ds) 0 ≤ SETTLEMENT_EPSILON * exc.length := by
    refine max_le ?_ (mul_nonneg (le_of_lt eps_pos) (Nat.cast_nonneg _))
    rw [hD]
    calc -exc.sum ≤ |exc.sum| := neg_le_abs _
      _ ≤ SETTLEMENT_EPSILON * exc.length := habs
  have hmaxDr : max (sumVals ds - sumVals cs) 0 ≤ SETTLEMENT_EPSILON * exc.length := by
    refine max_le ?_ (mul_nonneg (le_of_lt eps_pos) (Nat.cast_nonneg _))
    have : sumVals ds - sumVals cs = exc.sum := by linarith [hD]
    rw [this]
    calc exc.sum ≤ |exc.sum| := le_abs_self _
      _ ≤ SETTLEMENT_EPSILON * exc.length := habs
  constructor
  · -- zero sum: both aggregates equal the total of the emitted amounts
    have hfromP : ∀ s ∈ settleLoopAux r.currency (cs.length + ds.length) cs ds,
        s.from_person ∈ people := by
      intro s hs
      have h2 := (settle_names r.currency (cs.length + ds.length) cs ds s hs).2
      rw [hdsdef, mem_fst_sortDesc, map_fst_debtorsOf] at h2
      exact (List.mem_filter.1 h2).1
    have htoP : ∀ s ∈ settleLoopAux r.currency (cs.length + ds.length) cs ds,
        s.to_person ∈ people := by
      intro s hs
      have h2 := (settle_names r.currency (cs.length + ds.length) cs ds s hs).1
      rw [hcsdef, mem_fst_sortDesc, map_fst_creditorsOf] at h2
      exact (List.mem_filter.1 h2).1
    rw [sumOver_paidBy _ _ hfromP hnd, sumOver_recvBy _ _ htoP hnd]
  · -- per-person bound
    intro p hp
    have hgoal : dictGetD b p 0 +
        paidBy (settleLoopAux r.currency (cs.length + ds.length) cs ds) p -
        recvBy (settleLoopAux r.currency (cs.length + ds.length) cs ds) p - share =
        (dictGetD b p 0 - share) +
          paidBy (settleLoopAux r.currency (cs.length + ds.length) cs ds) p -
          recvBy (settleLoopAux r.currency (cs.length + ds.length) cs ds) p := by
      ring
    rw [hgoal]
    have hexcl : (0 : ℚ) ≤ (exc.length : ℚ) := Nat.cast_nonneg _
    have hcsl0 : (0 : ℚ) ≤ (cs.length : ℚ) := Nat.cast_nonneg _
    have hdsl0 : (0 : ℚ) ≤ (ds.length : ℚ) := Nat.cast_nonneg _
    by_cases hcred : dictGetD b p 0 - share > SETTLEMENT_EPSILON
    · -- creditor
      have hmemc : (p, dictGetD b p 0 - share) ∈ cs := by
        rw [hcsdef]
        exact (mem_sortDesc _ _).2
          ((mem_creditorsOf b share people _).2 ⟨hp, hcred, rfl⟩)
      have hpaid0 : paidBy (settleLoopAux r.currency (cs.length + ds.length) cs ds) p = 0 := by
        refine paidBy_settle_zero r.currency _ cs ds p ?_
        intro hmem
        rw [hdsdef, mem_fst_sortDesc, map_fst_debtorsOf] at hmem
        have h2 := of_decide_eq_true (List.mem_filter.1 hmem).2
        have := eps_pos
        linarith
      have hcpos : (1 : ℚ) ≤ (cs.length : ℚ) := by
        have : cs ≠ [] := List.ne_nil_of_mem hmemc
        have h1 : 1 ≤ cs.length := List.length_pos.2 this
        exact_mod_cast h1
      have hub := settle_leftover_le r.currency (cs.length + ds.length) cs ds p
        (dictGetD b p 0 - share) le_rfl hcsE hdsE hcsN hmemc
      have hlb := recvBy_settle_le r.currency (cs.length + ds.length) cs ds p
        (dictGetD b p 0 - share) hcsE hdsE hcsN hmemc
      rw [hpaid0]
      rw [abs_le]
      simp only [SETTLEMENT_EPSILON] at hub hlb hmaxD ⊢
      constructor
      · linarith
      · linarith
    · by_cases hdebt : dictGetD b p 0 - share < -SETTLEMENT_EPSILON
      · -- debtor
        have hmemd : (p, -(dictGetD b p 0 - share)) ∈ ds := by
          rw [hdsdef]
          exact (mem_sortDesc _ _).2
            ((mem_debtorsOf b share people _).2 ⟨hp, hdebt, rfl⟩)
        have hrecv0 : recvBy (settleLoopAux r.currency (cs.length + ds.length) cs ds) p = 0 := by
          refine recvBy_settle_zero r.currency _ cs ds p ?_
          intro hmem
          rw [hcsdef, mem_fst_sortDesc, map_fst_creditorsOf] at hmem
          have h2 := of_decide_eq_true (List.mem_filter.1 hmem).2
          have := eps_pos
          linarith
        have hdpos : (1 : ℚ) ≤ (ds.length : ℚ) := by
          have : ds ≠ [] := List.ne_nil_of_mem hmemd
          have h1 : 1 ≤ ds.length := List.length_pos.2 this
          exact_mod_cast h1
        have hub := settle_dleftover_le r.currency (cs.length + ds.length) cs ds p
          (-(dictGetD b p 0 - share)) le_rfl hcsE hdsE hdsN hmemd
        have hlb := paidBy_settle_le r.currency (cs.length + ds.length) cs ds p
          (-(dictGetD b p 0 - share)) hcsE hdsE hdsN hmemd
        rw [hrecv0]
        rw [abs_le]
        simp only [SETTLEMENT_EPSILON] at hub hlb hmaxDr ⊢
        constructor
        · linarith
        · linarith
      · -- within epsilon of the equal share: untouched by the loop
        have hpc : p ∉ cs.map Prod.fst := by
          intro hmem
          rw [hcsdef, mem_fst_sortDesc, map_fst_creditorsOf] at hmem
          exact hcred (of_decide_eq_true (List.mem_filter.1 hmem).2)
        have hpd : p ∉ ds.map Prod.fst := by
          intro hmem
          rw [hdsdef, mem_fst_sortDesc, map_fst_debtorsOf] at hmem
          exact hdebt (of_decide_eq_true (List.mem_filter.1 hmem).2)
        rw [recvBy_settle_zero r.currency _ cs ds p hpc,
          paidBy_settle_zero r.currency _ cs ds p hpd]
        have h1 : |dictGetD b p 0 - share| ≤ SETTLEMENT_EPSILON :=
          abs_le.2 ⟨not_lt.1 hdebt, not_lt.1 hcred⟩
        have hn1 : (1 : ℚ) ≤ (people.length : ℚ) := by
          have h2 : 1 ≤ people.length := List.length_pos.2 hne
          exact_mod_cast h2
        simp only [SETTLEMENT_EPSILON] at h1 ⊢
        rw [abs_le] at h1 ⊢
        constructor
        · linarith [h1.1]
        · linarith [h1.2]

unseal Rat.mul Rat.inv Rat.add Rat.sub Rat.ofScientific in
/-- C1 witness: the two-person receipt with balances 30/10 and total 40
satisfies the amended bound (its single settlement B→A 10.00 brings both
within tolerance of the equal share 20.00). -/
theorem C1_settlements_bounded_witness :
    sumOver ["A", "B"]
        (paidBy (optimize_settlements c1wReceipt ["A", "B"]
          (calculate_balances c1wReceipt ["A", "B"]))) =
      sumOver ["A", "B"]
        (recvBy (optimize_settlements c1wReceipt ["A", "B"]
          (calculate_balances c1wReceipt ["A", "B"]))) ∧
    ∀ p ∈ ["A", "B"],
      |dictGetD (calculate_balances c1wReceipt ["A", "B"]) p 0 +
          paidBy (optimize_settlements c1wReceipt ["A", "B"]
            (calculate_balances c1wReceipt ["A", "B"])) p -
          recvBy (optimize_settlements c1wReceipt ["A", "B"]
            (calculate_balances c1wReceipt ["A", "B"])) p -
          c1wReceipt.total / ((["A", "B"] : List String).length : ℚ)| ≤
        SETTLEMENT_EPSILON * (2 * ((["A", "B"] : List String).length : ℚ) + 1) :=
  C1_settlements_bounded c1wReceipt ["A", "B"] (by decide) (by decide) (by decide)

/-! ## C4 — _clean_price normalization -/

unseal Rat.mul Rat.inv Rat.add Rat.sub Rat.ofScientific in
/-- **C4** counterexample: by the claim, the lone comma of "1,234" (followed
by three digits) is removed as a thousands separator, giving 1234 — inside
the plausible range, hence returned.  The code has no removal branch in
that case: `float("1,234")` raises `ValueError` and the sentinel 0 comes
back. -/
theorem C4_counterexample : cleanPrice "1,234" = 0 ∧ (0 : ℚ) ≠ 1234 :=
  ⟨by decide, by decide⟩

unseal Rat.mul Rat.inv Rat.add Rat.sub Rat.ofScientific in
/-- **C4** (amended): the four representative conversions hold
("12,50 лв" ↦ 12.50, "1.234,56" ↦ 1234.56, "$12.50" ↦ 12.50, "99999" ↦ 0);
in the only-comma case the comma is treated as a decimal separator when at
most 2 characters follow it, and otherwise it is **not** removed: every
price string whose cleaned form has a single comma followed by 3 or more
characters (and no dot) yields the sentinel 0. -/
theorem C4_clean_price :
    cleanPrice "12,50 лв" = 25 / 2 ∧
    cleanPrice "1.234,56" = 30864 / 25 ∧
    cleanPrice "$12.50" = 25 / 2 ∧
    cleanPrice "99999" = 0 ∧
    ∀ s : String,
      (s.toList.filter (fun c => isDigitCh c ∨ c = ',' ∨ c = '.')).contains ',' = true →
      (s.toList.filter (fun c => isDigitCh c ∨ c = ',' ∨ c = '.')).contains '.' = false →
      (s.toList.filter (fun c => isDigitCh c ∨ c = ',' ∨ c = '.')).count ',' = 1 →
      3 ≤ (afterComma (s.toList.filter (fun c => isDigitCh c ∨ c = ',' ∨ c = '.'))).length →
      cleanPrice s = 0 := by
  refine ⟨by decide, by decide, by decide, by decide, ?_⟩
  intro s h1 h2 h3 h4
  have hs : s ≠ "" := by
    intro hs
    subst hs
    simp at h1
  simp only [cleanPrice, if_neg hs]
  rw [if_neg (fun h => by rw [h2] at h; exact absurd h.2 (by simp))]
  rw [if_pos ⟨h1, h3⟩]
  rw [if_neg (by omega)]
  simp only [parseDecimal, h1]
  rfl

/-- C4 witness for the amended only-comma rule, at the concrete string
"2,345" (single comma, three digits after it). -/
theorem C4_clean_price_witness : cleanPrice "2,345" = 0 :=
  C4_clean_price.2.2.2.2 "2,345" (by decide) (by decide) (by decide) (by decide)

/-! ## C6 — _detect_currency -/

/-- **C6** counterexample: "лв $" has one lev marker and one dollar marker,
a tie for the highest count, which the claim resolves to "BGN"; the code
returns "USD", because the BGN branch demands a strict majority and the
USD branch only compares against EUR. -/
theorem C6_counterexample : detectCurrency "лв $" = "USD" ∧ ("USD" : String) ≠ "BGN" :=
  ⟨by rfl, by decide⟩

/-- **C6** (amended): the marker counts decide the currency as follows — a
strict BGN majority gives "BGN"; otherwise USD strictly above EUR gives
"USD" even when tied with BGN; otherwise a positive EUR count gives "EUR"
even when tied with BGN or USD; all counts zero gives "BGN".  (Ties are
thus not resolved to "BGN" as claimed, except the all-zero case.) -/
theorem C6_detect_currency (text : String) :
    (usdCount text < bgCount text ∧ eurCount text < bgCount text →
      detectCurrency text = "BGN") ∧
    (bgCount text ≤ usdCount text ∧ eurCount text < usdCount text →
      detectCurrency text = "USD") ∧
    (bgCount text ≤ eurCount text ∧ usdCount text ≤ eurCount text ∧
        0 < eurCount text →
      detectCurrency text = "EUR") ∧
    (bgCount text = 0 ∧ usdCount text = 0 ∧ eurCount text = 0 →
      detectCurrency text = "BGN") := by
  simp only [detectCurrency]
  refine ⟨fun h => ?_, fun h => ?_, fun h => ?_, fun h => ?_⟩
  · rw [if_pos (max_lt_iff.mpr ⟨h.1, h.2⟩)]
  · rw [if_neg (fun hmax => absurd h.1 (not_le.mpr (max_lt_iff.mp hmax).1)),
      if_pos h.2]
  · rw [if_neg (not_lt.mpr (le_trans h.1 (le_max_right _ _))),
      if_neg (not_lt.mpr h.2.1), if_pos h.2.2]
  · rw [h.1, h.2.1, h.2.2]
    simp

/-- C6 witness: a single lev marker is a strict majority, so the first
branch of the amended statement applies to "лв". -/
theorem C6_detect_currency_witness : detectCurrency "лв" = "BGN" :=
  (C6_detect_currency "лв").1 ⟨by decide, by decide⟩

/-! ## Totality of the extraction cascade and of parse -/

theorem extractP5E_ok (id : Nat) (cs : List Char) :
    ∃ items, extractP5E id cs = Except.ok items ∧ items.length ≤ 1 := by
  unfold extractP5E
  cases h5 : p5At cs with
  | none => exact ⟨[], rfl, by simp⟩
  | some val =>
    obtain ⟨g1, g2⟩ := val
    dsimp only
    split_ifs
    · exact ⟨_, rfl, by simp⟩
    · exact ⟨[], rfl, by simp⟩

theorem extractP4E_ok (id : Nat) (cs : List Char) :
    ∃ items, extractP4E id cs = Except.ok items ∧ items.length ≤ 1 := by
  unfold extractP4E
  cases h4 : p4At cs with
  | none => exact extractP5E_ok id cs
  | some val =>
    obtain ⟨g1, g2⟩ := val
    dsimp only
    split_ifs
    · exact ⟨_, rfl, by simp⟩
    · exact extractP5E_ok id cs

theorem extractP3E_ok (id : Nat) (cs : List Char) :
    ∃ items, extractP3E id cs = Except.ok items ∧ items.length ≤ 1 := by
  unfold extractP3E
  cases h3 : searchR p3At cs with
  | none => exact extractP4E_ok id cs
  | some val =>
    obtain ⟨g1, g2, g3, g4⟩ := val
    dsimp only
    split_ifs
    · exact ⟨_, rfl, by simp⟩
    · exact extractP4E_ok id cs

/-- The guarded unit-price division of stages 1 and 2 never raises. -/
theorem guarded_div_ok (q : Nat) (t : ℚ) :
    (if 0 < q then qdivE t (q : ℚ) else Except.ok t) =
      Except.ok (if 0 < q then t / (q : ℚ) else t) := by
  split_ifs with hq
  · unfold qdivE
    rw [if_neg (Nat.cast_ne_zero.mpr (Nat.pos_iff_ne_zero.mp hq))]
  · rfl

theorem extractP2E_ok (id : Nat) (cs : List Char) :
    ∃ items, extractP2E id cs = Except.ok items ∧ items.length ≤ 1 := by
  unfold extractP2E
  cases h2 : p2At cs with
  | none => exact extractP3E_ok id cs
  | some val =>
    obtain ⟨g1, g2, g3⟩ := val
    dsimp only
    rw [guarded_div_ok]
    dsimp only
    split_ifs <;> first
      | exact ⟨_, rfl, by simp⟩
      | exact extractP3E_ok id cs

theorem extractLineE_ok (id : Nat) (line : String) :
    ∃ items, extractLineE id line = Except.ok items ∧ items.length ≤ 1 := by
  unfold extractLineE
  dsimp only
  split_ifs
  · exact ⟨[], rfl, by simp⟩
  · exact ⟨[], rfl, by simp⟩
  · cases h1 : searchR p1At (strip line).toList with
    | none => exact extractP2E_ok id (strip line).toList
    | some val =>
      obtain ⟨g1, g2, g3⟩ := val
      dsimp only
      rw [guarded_div_ok]
      dsimp only
      split_ifs <;> first
        | exact ⟨_, rfl, by simp⟩
        | exact extractP2E_ok id (strip line).toList

theorem extractFold_ok (lines : List String) :
    ∃ v, extractFold lines = Except.ok v := by
  unfold extractFold
  generalize ([] : List ReceiptItem) = acc
  induction lines.enum generalizing acc with
  | nil => exact ⟨acc, rfl⟩
  | cons p ps ih =>
    obtain ⟨items, h, -⟩ := extractLineE_ok p.1 p.2
    obtain ⟨v, hv⟩ := ih (acc ++ items)
    exact ⟨v, by rw [List.foldlM_cons, h]; exact hv⟩

theorem parseE_ok (s : String) : ∃ r, parseE s = Except.ok r := by
  simp only [parseE]
  obtain ⟨v, hv⟩ := extractFold_ok
    (((splitOnNl (dedupLines s).toList).map String.mk).filter (fun l => strip l ≠ ""))
  rw [hv]
  exact ⟨_, rfl⟩

/-! ## C7 — parse never raises -/

unseal Rat.mul Rat.inv Rat.add Rat.sub Rat.ofScientific in
/-- **C7**: for every input string, `ReceiptParser.parse` returns normally
(no modelled Python exception escapes), and on fully malformed input it
returns the empty receipt: no items, total 0 (with the default currency
"BGN"). -/
theorem C7_parse_total :
    (∀ s : String, ∃ r, parseE s = Except.ok r) ∧
    parseE "@@@" = Except.ok
      { items := [], total := 0, original_total := 0, tip_amount := 0,
        currency := "BGN" } :=
  ⟨parseE_ok, by rfl⟩

/-! ## C9 — the extraction cascade falls through on invalid matches -/

unseal Rat.mul Rat.inv Rat.add Rat.sub Rat.ofScientific in
/-- **C9**: every call of `_extract_items_from_line` returns normally with
at most one item.  On "## x2 3.00" the quantity pattern (stage 1) matches
with name "##", which fails validation; the cascade continues and stage 5
(Simple Item Price) yields the item "## x2" at price 3.00 — an invalid
earlier match does not stop later patterns.  A line matching no pattern
("@@@") yields zero items. -/
theorem C9_extract_cascade :
    (∀ (id : Nat) (line : String),
      ∃ items, extractLineE id line = Except.ok items ∧ items.length ≤ 1) ∧
    extractLineE 7 "## x2 3.00" = Except.ok
      [{ id := 7, name := "## x2", quantity := 1, unit_price := 3, price := 3,
         assigned_to := [] }] ∧
    extractLineE 3 "@@@" = Except.ok [] :=
  ⟨extractLineE_ok, by rfl, by rfl⟩

/-! ## Structure of _merge_duplicate_items (improved_version_split.py) -/

/-- Absorbing duplicates never changes the representative's id, name or
unit price. -/
theorem foldl_mergeInto_fields (l : List ReceiptItem) (base : ReceiptItem) :
    (l.foldl mergeInto base).id = base.id ∧
    (l.foldl mergeInto base).name = base.name ∧
    (l.foldl mergeInto base).unit_price = base.unit_price := by
  induction l generalizing base with
  | nil => exact ⟨rfl, rfl, rfl⟩
  | cons x xs ih =>
    rw [List.foldl_cons]
    exact ih (mergeInto base x)

/-- The group representatives are a sublist of the input. -/
theorem mergeReps_sublist (fuel : Nat) (items : List ReceiptItem) :
    (mergeReps fuel items).Sublist items := by
  induction fuel generalizing items with
  | zero => simp [mergeReps]
  | succ fuel ih =>
    cases items with
    | nil => simp [mergeReps]
    | cons item1 rest =>
      rw [mergeReps]
      exact List.Sublist.cons₂ _ ((ih _).trans (List.filter_sublist _))

/-- No two group representatives are similar. -/
theorem mergeReps_pairwise (fuel : Nat) (items : List ReceiptItem) :
    (mergeReps fuel items).Pairwise (fun a b => areItemsSimilar a b = false) := by
  induction fuel generalizing items with
  | zero => simp [mergeReps]
  | succ fuel ih =>
    cases items with
    | nil => simp [mergeReps]
    | cons item1 rest =>
      rw [mergeReps]
      refine List.Pairwise.cons (fun b hb => ?_) (ih _)
      have hb' := (mergeReps_sublist fuel _).subset hb
      have hmem := List.of_mem_filter hb'
      simpa using hmem

/-- The merged output corresponds entry-by-entry to the representatives:
same id, name and unit price. -/
theorem mergeDupAux_map_fields (fuel : Nat) (items : List ReceiptItem) :
    (mergeDupAux fuel items).map (fun it => (it.id, it.name, it.unit_price)) =
      (mergeReps fuel items).map (fun it => (it.id, it.name, it.unit_price)) := by
  induction fuel generalizing items with
  | zero => rfl
  | succ fuel ih =>
    cases items with
    | nil => rfl
    | cons item1 rest =>
      rw [mergeDupAux, mergeReps, List.map_cons, List.map_cons, ih]
      obtain ⟨h1, h2, h3⟩ := foldl_mergeInto_fields
        (rest.filter (fun it2 => areItemsSimilar item1 it2)) item1
      rw [h1, h2, h3]

/-- A pairwise non-similar list passes through the merge unchanged. -/
theorem mergeDupAux_nodup (fuel : Nat) (items : List ReceiptItem)
    (hfuel : items.length ≤ fuel)
    (h : items.Pairwise (fun a b => areItemsSimilar a b = false)) :
    mergeDupAux fuel items = items := by
  induction fuel generalizing items with
  | zero =>
    have hnil : items = [] := List.length_eq_zero.mp (Nat.le_zero.mp hfuel)
    subst hnil
    rfl
  | succ fuel ih =>
    cases items with
    | nil => rfl
    | cons item1 rest =>
      rw [mergeDupAux]
      obtain ⟨hhead, htail⟩ := List.pairwise_cons.mp h
      have hsim : rest.filter (fun it2 => areItemsSimilar item1 it2) = [] := by
        rw [List.filter_eq_nil_iff]
        intro a ha
        simp [hhead a ha]
      have hns : rest.filter (fun it2 => ! areItemsSimilar item1 it2) = rest := by
        rw [List.filter_eq_self]
        intro a ha
        simp [hhead a ha]
      have hlen : rest.length ≤ fuel := by
        simp only [List.length_cons] at hfuel
        omega
      rw [hsim, hns, List.foldl_nil, ih rest hlen htail]

/-! ## C8 — item merge -/

unseal Rat.mul Rat.inv Rat.add Rat.sub Rat.ofScientific in
/-- **C8**: merging the two exact duplicates ("Salad", quantity 1,
price 5.00) yields exactly one item with quantity 2 and price
10.00 = unit_price · quantity (`assigned_to` unioned, here empty); and
every input list with no duplicate pair under `_are_items_similar` is
returned unchanged, order preserved. -/
theorem C8_merge :
    mergeDuplicateItems
        [{ id := 1, name := "Salad", quantity := 1, unit_price := 5, price := 5,
           assigned_to := [] },
         { id := 2, name := "Salad", quantity := 1, unit_price := 5, price := 5,
           assigned_to := [] }] =
      [{ id := 1, name := "Salad", quantity := 2, unit_price := 5, price := 10,
         assigned_to := [] }] ∧
    ∀ items : List ReceiptItem,
      items.Pairwise (fun a b => areItemsSimilar a b = false) →
      mergeDuplicateItems items = items :=
  ⟨by rfl, fun items h => mergeDupAux_nodup items.length items le_rfl h⟩

unseal Rat.mul Rat.inv Rat.add Rat.sub Rat.ofScientific in
/-- C8 witness: "pizza" (3.00) and "cola" (2.00) are not similar under any
of the duplicate criteria, so the two-item list passes through unchanged. -/
theorem C8_merge_witness :
    mergeDuplicateItems
        [{ id := 1, name := "pizza", quantity := 1, unit_price := 3, price := 3,
           assigned_to := [] },
         { id := 2, name := "cola", quantity := 1, unit_price := 2, price := 2,
           assigned_to := [] }] =
      [{ id := 1, name := "pizza", quantity := 1, unit_price := 3, price := 3,
         assigned_to := [] },
       { id := 2, name := "cola", quantity := 1, unit_price := 2, price := 2,
         assigned_to := [] }] :=
  C8_merge.2
    [{ id := 1, name := "pizza", quantity := 1, unit_price := 3, price := 3,
       assigned_to := [] },
     { id := 2, name := "cola", quantity := 1, unit_price := 2, price := 2,
       assigned_to := [] }]
    (by decide)

/-! ## C3 — parse does not merge duplicate items -/

set_option maxRecDepth 8000 in
unseal Rat.mul Rat.inv Rat.add Rat.sub Rat.ofScientific in
/-- **C3** counterexample: parsing "Salad - 5.00\nBig Salad - 5.00" returns
two distinct items ("Salad" and "Big Salad", both 5.00) that are duplicates
under the item-level criteria — "salad" is a substring of "big salad", both
longer than 3 characters, with matching prices — so `parse` did not merge
the accumulated items (line-level deduplication keeps both lines: their
similarity 6/7 is below 0.95). -/
theorem C3_counterexample :
    ∃ r a b, parseE "Salad - 5.00\nBig Salad - 5.00" = Except.ok r ∧
      r.items = [a, b] ∧ a ≠ b ∧ areItemsSimilar a b = true :=
  ⟨{ items :=
      [{ id := 0, name := "Salad", quantity := 1, unit_price := 5, price := 5,
         assigned_to := [] },
       { id := 1, name := "Big Salad", quantity := 1, unit_price := 5, price := 5,
         assigned_to := [] }],
     total := 10, original_total := 10, tip_amount := 0, currency := "BGN" },
   { id := 0, name := "Salad", quantity := 1, unit_price := 5, price := 5,
     assigned_to := [] },
   { id := 1, name := "Big Salad", quantity := 1, unit_price := 5, price := 5,
     assigned_to := [] },
   by rfl, rfl, by decide, by decide⟩

/-- **C3** (amended): `ReceiptParser.parse` itself performs no item-level
merge (the counterexample exhibits a surviving duplicate pair); the merge
criteria live in `_merge_duplicate_items` of the improved parser variant,
and for that function the claimed property holds structurally: the output
corresponds entry-by-entry (same id, name, unit price) to a sublist of the
input containing no two items that are duplicates under the item-level
criteria. -/
theorem C3_merge_structure (items : List ReceiptItem) :
    (mergeReps items.length items).Sublist items ∧
    (mergeReps items.length items).Pairwise
      (fun a b => areItemsSimilar a b = false) ∧
    (mergeDuplicateItems items).map (fun it => (it.id, it.name, it.unit_price)) =
      (mergeReps items.length items).map
        (fun it => (it.id, it.name, it.unit_price)) :=
  ⟨mergeReps_sublist _ _, mergeReps_pairwise _ _, mergeDupAux_map_fields _ _⟩

end Groupify
